import Mathlib

/-!
Verification development for a Monte Carlo path tracer
(BVH build/traversal, sphere intersection, material scattering,
radiance integrator, row-band render scheduler).

Machine floating point (f32) is embedded as exact rationals; the external
square-root primitive is passed as an explicit function parameter, and the
theorems that need it to behave like a square root take that as a
hypothesis at the discriminants that actually arise.
-/

/-- 3-component vector (vec3.rs is an external collaborator; the spec fixes
its operations: add/scale/dot/length/normalize/element-wise multiply). -/
structure Vec3 where
  x : ℚ
  y : ℚ
  z : ℚ
deriving DecidableEq

namespace Vec3

def add (a b : Vec3) : Vec3 := ⟨a.x + b.x, a.y + b.y, a.z + b.z⟩

def sub (a b : Vec3) : Vec3 := ⟨a.x - b.x, a.y - b.y, a.z - b.z⟩

def smul (k : ℚ) (a : Vec3) : Vec3 := ⟨k * a.x, k * a.y, k * a.z⟩

def divs (a : Vec3) (k : ℚ) : Vec3 := ⟨a.x / k, a.y / k, a.z / k⟩

def dot (a b : Vec3) : ℚ := a.x * b.x + a.y * b.y + a.z * b.z

def square_length (a : Vec3) : ℚ := dot a a

/-- Element-wise product (`Vec3::direct_product`). -/
def direct_product (a b : Vec3) : Vec3 := ⟨a.x * b.x, a.y * b.y, a.z * b.z⟩

/-- Component access by axis index, as used by the BVH sort comparator. -/
def get (a : Vec3) : ℕ → ℚ
  | 0 => a.x
  | 1 => a.y
  | _ => a.z

/-- `make_normalised`: divide by the length; the square root of the squared
length is supplied by the external primitive `sq`. -/
def make_normalised (sq : ℚ → ℚ) (a : Vec3) : Vec3 :=
  divs a (sq (square_length a))

end Vec3

/-- The all-zero vector. -/
def vzero : Vec3 := ⟨0, 0, 0⟩

/-- Ray: origin plus direction (ray.rs, external collaborator). -/
structure Ray where
  origin : Vec3
  direction : Vec3
deriving DecidableEq

/-- `Ray::point_at_parameter(t) = origin + t*direction`. -/
def Ray.point_at_parameter (r : Ray) (t : ℚ) : Vec3 :=
  Vec3.add r.origin (Vec3.smul t r.direction)

/-- Axis-aligned bounding box: min/max corner pair (aabb.rs, external). -/
structure Aabb where
  min : Vec3
  max : Vec3
deriving DecidableEq

namespace Aabb

def build (lo hi : Vec3) : Aabb := ⟨lo, hi⟩

/-- `Aabb::surrounding_box`: componentwise min of mins, max of maxes. -/
def surrounding_box (a b : Aabb) : Aabb :=
  ⟨⟨Min.min a.min.x b.min.x, Min.min a.min.y b.min.y, Min.min a.min.z b.min.z⟩,
   ⟨Max.max a.max.x b.max.x, Max.max a.max.y b.max.y, Max.max a.max.z b.max.z⟩⟩

/-- One slab of the slab test: intersect the accumulated parameter interval
with the interval of parameters at which the ray is inside `[lo, hi]` on one
axis; `none` when the ray is parallel to the slab and outside it. -/
def slabUpdate (lo hi o d : ℚ) : ℚ × ℚ → Option (ℚ × ℚ)
  | (tlo, thi) =>
    if d = 0 then
      if lo ≤ o ∧ o ≤ hi then some (tlo, thi) else none
    else
      some (Max.max tlo (Min.min ((lo - o) / d) ((hi - o) / d)),
            Min.min thi (Max.max ((lo - o) / d) ((hi - o) / d)))

/-- Modelled from the spec: aabb.rs is not in the provided sources; §6 fixes
its interface `overlaps(ray, t_min, t_max) → bool (slab test)`.  The three
per-axis slabs are intersected with `(t_min, t_max)` and the test reports
whether the resulting interval is nonempty. -/
def hit (b : Aabb) (ray : Ray) (t_min t_max : ℚ) : Bool :=
  match slabUpdate b.min.x b.max.x ray.origin.x ray.direction.x (t_min, t_max) with
  | none => false
  | some i1 =>
    match slabUpdate b.min.y b.max.y ray.origin.y ray.direction.y i1 with
    | none => false
    | some i2 =>
      match slabUpdate b.min.z b.max.z ray.origin.z ray.direction.z i2 with
      | none => false
      | some (tlo, thi) => decide (tlo ≤ thi)

/-- `a` contains `b` componentwise. -/
def contains (a b : Aabb) : Prop :=
  a.min.x ≤ b.min.x ∧ a.min.y ≤ b.min.y ∧ a.min.z ≤ b.min.z ∧
  b.max.x ≤ a.max.x ∧ b.max.y ≤ a.max.y ∧ b.max.z ≤ a.max.z

/-- A point lies inside a box (closed). -/
def containsPoint (a : Aabb) (p : Vec3) : Prop :=
  a.min.x ≤ p.x ∧ a.min.y ≤ p.y ∧ a.min.z ≤ p.z ∧
  p.x ≤ a.max.x ∧ p.y ≤ a.max.y ∧ p.z ≤ a.max.z

end Aabb

/-- The closed set of material variants (material.rs). -/
inductive Material where
  | lambertian (albedo : Vec3)
  | metal (albedo : Vec3)
  | dielectric (refraction_index : ℚ)
deriving DecidableEq

/-- Sphere primitive: center, radius, owned material. -/
structure Sphere where
  center : Vec3
  radius : ℚ
  material : Material
deriving DecidableEq

/-- `Sphere::bounding_box`: center ± (radius, radius, radius). -/
def Sphere.bounding_box (s : Sphere) : Aabb :=
  Aabb.build (Vec3.sub s.center ⟨s.radius, s.radius, s.radius⟩)
             (Vec3.add s.center ⟨s.radius, s.radius, s.radius⟩)

/-- Result of an intersection query (ray.rs `HitRecord`). -/
structure HitRecord where
  t : ℚ
  p : Vec3
  normal : Vec3
  material : Material
deriving DecidableEq

/-- The record `Sphere::hit` builds at parameter `t`. -/
def sphereRecord (s : Sphere) (ray : Ray) (t : ℚ) : HitRecord :=
  let hit_point := ray.point_at_parameter t
  ⟨t, hit_point, Vec3.divs (Vec3.sub hit_point s.center) s.radius, s.material⟩

/-- The quadratic coefficient `b = dot(origin − center, direction)`. -/
def sphereB (s : Sphere) (ray : Ray) : ℚ :=
  Vec3.dot (Vec3.sub ray.origin s.center) ray.direction

/-- The discriminant `b*b − a*c` computed by `Sphere::hit`. -/
def sphereDisc (s : Sphere) (ray : Ray) : ℚ :=
  let a := Vec3.square_length ray.direction
  let b := sphereB s ray
  let c := Vec3.square_length (Vec3.sub ray.origin s.center) - s.radius * s.radius
  b * b - a * c

/-- `Sphere::hit` (hitable.rs): solve the quadratic; if the discriminant is
positive, try the nearer root `(−b − √disc)/a` then the farther root
`(−b + √disc)/a`, returning the first lying strictly inside
`(t_min, t_max)`.  `sq` is the external square-root primitive. -/
def Sphere.hit (sq : ℚ → ℚ) (s : Sphere) (ray : Ray) (t_min t_max : ℚ) :
    Option HitRecord :=
  let oc := Vec3.sub ray.origin s.center
  let a := Vec3.square_length ray.direction
  let b := Vec3.dot oc ray.direction
  let c := Vec3.square_length oc - s.radius * s.radius
  let discriminant := b * b - a * c
  if 0 < discriminant then
    let tmp := (-b - sq discriminant) / a
    if tmp < t_max ∧ t_min < tmp then
      some (sphereRecord s ray tmp)
    else
      let tmp2 := (-b + sq discriminant) / a
      if tmp2 < t_max ∧ t_min < tmp2 then
        some (sphereRecord s ray tmp2)
      else
        none
  else
    none

/-- BVH tree shape: a leaf is a primitive; an internal node carries its
bounding box and two children (hitable.rs `BvhNode`). -/
inductive HTree where
  | leaf (s : Sphere)
  | node (bounding_box : Aabb) (left right : HTree)
deriving DecidableEq

namespace HTree

/-- `bounding_box()` of a tree: a leaf answers with the sphere's own box, an
internal node with its stored box. -/
def bounding_box : HTree → Aabb
  | .leaf s => s.bounding_box
  | .node bb _ _ => bb

/-- Combination of the two child query results in `BvhNode::hit`: the one
with the smaller `t` wins, the right child on ties. -/
def hitCombine : Option HitRecord → Option HitRecord → Option HitRecord
  | some l, some r => if l.t < r.t then some l else some r
  | some l, none => some l
  | none, some r => some r
  | none, none => none

/-- `BvhNode::hit`: prune when the node's box misses the ray, otherwise
query both children and combine; a leaf delegates to `Sphere::hit`. -/
def hit (sq : ℚ → ℚ) : HTree → Ray → ℚ → ℚ → Option HitRecord
  | .leaf s, ray, t_min, t_max => s.hit sq ray t_min t_max
  | .node bb l r, ray, t_min, t_max =>
    if bb.hit ray t_min t_max then
      hitCombine (l.hit sq ray t_min t_max) (r.hit sq ray t_min t_max)
    else
      none

/-- The primitives stored at the leaves, left to right. -/
def leaves : HTree → List Sphere
  | .leaf s => [s]
  | .node _ l r => l.leaves ++ r.leaves

/-- Structural invariant established by the builder: every internal node's
box is the exact union of its two children's boxes. -/
def wf : HTree → Bool
  | .leaf _ => true
  | .node bb l r =>
    bb = Aabb.surrounding_box l.bounding_box r.bounding_box && l.wf && r.wf

end HTree

/-- Brute-force linear scan: intersect the ray against every primitive
restricted to `(t_min, t_max)` and keep the (first) minimum `t`. -/
def linearScan (sq : ℚ → ℚ) (ps : List Sphere) (ray : Ray) (t_min t_max : ℚ) :
    Option HitRecord :=
  ps.foldl
    (fun acc p =>
      match acc, p.hit sq ray t_min t_max with
      | none, h => h
      | some a, none => some a
      | some a, some h => if h.t < a.t then some h else some a)
    none

/-- The pseudo-random generator (rng.rs, external): modelled as a stream of
uniform draws; `gen` yields the head and advances the stream. -/
def Rnd : Type := ℕ → ℚ

/-- `Random::gen()`. -/
def Rnd.gen (r : Rnd) : ℚ × Rnd := (r 0, fun n => r (n + 1))

/-- The key the BVH build sorts by: the bounding box's minimum coordinate on
the chosen axis. -/
def sortKey (axis : ℕ) (s : Sphere) : ℚ := s.bounding_box.min.get axis

/-- One insertion step of the sort used while building the BVH.  The source
comparator never reports equality (ties are ordered arbitrarily by the sort),
so only the induced permutation matters to any property proved here. -/
def insertByKey (axis : ℕ) (p : Sphere) : List Sphere → List Sphere
  | [] => [p]
  | q :: qs =>
    if sortKey axis p < sortKey axis q then p :: q :: qs
    else q :: insertByKey axis p qs

/-- The sort performed by `build_bvh_tree` before splitting. -/
def sortByKey (axis : ℕ) (l : List Sphere) : List Sphere :=
  l.foldr (insertByKey axis) []

theorem insertByKey_length (axis : ℕ) (p : Sphere) (l : List Sphere) :
    (insertByKey axis p l).length = l.length + 1 := by
  induction l with
  | nil => rfl
  | cons q qs ih =>
    simp only [insertByKey]
    by_cases h : sortKey axis p < sortKey axis q
    · simp [h]
    · simp [h, ih]

theorem sortByKey_length (axis : ℕ) (l : List Sphere) :
    (sortByKey axis l).length = l.length := by
  induction l with
  | nil => rfl
  | cons q qs ih => simp [sortByKey, List.foldr] at ih ⊢; rw [insertByKey_length, ih]

theorem insertByKey_perm (axis : ℕ) (p : Sphere) (l : List Sphere) :
    (insertByKey axis p l).Perm (p :: l) := by
  induction l with
  | nil => exact List.Perm.refl _
  | cons q qs ih =>
    simp only [insertByKey]
    by_cases h : sortKey axis p < sortKey axis q
    · simp [h]
    · simp only [h, if_false]
      exact (ih.cons q).trans (List.Perm.swap p q qs)

theorem sortByKey_perm (axis : ℕ) (l : List Sphere) :
    (sortByKey axis l).Perm l := by
  induction l with
  | nil => exact List.Perm.refl _
  | cons q qs ih =>
    simp only [sortByKey, List.foldr] at ih ⊢
    exact (insertByKey_perm axis q _).trans (ih.cons q)

/-- `BvhNode::build_bvh_tree` (hitable.rs).  One primitive becomes a leaf;
two become an internal node over two leaves; for three or more, draw a
random axis, sort by that axis's minimum box coordinate, split at the middle
index, recurse on the halves and wrap them in a node whose box is the union
of the children's boxes.  The source diverges on empty input (empty input is
a precondition violation); the model returns `none` there. -/
def build_bvh_tree : List Sphere → Rnd → Option (HTree × Rnd)
  | [], _ => none
  | [p], rnd => some (.leaf p, rnd)
  | [p, q], rnd =>
    some (.node (Aabb.surrounding_box p.bounding_box q.bounding_box)
            (.leaf p) (.leaf q), rnd)
  | p :: q :: r :: rest, rnd =>
    let drawn := rnd.gen
    let axis := (Int.floor (drawn.1 * 3)).toNat
    let sorted := sortByKey axis (p :: q :: r :: rest)
    let first := sorted.take (sorted.length / 2)
    let second := sorted.drop (sorted.length / 2)
    match build_bvh_tree first drawn.2 with
    | none => none
    | some (lt, rnd2) =>
      match build_bvh_tree second rnd2 with
      | none => none
      | some (rt, rnd3) =>
        some (.node (Aabb.surrounding_box lt.bounding_box rt.bounding_box)
                lt rt, rnd3)
  termination_by l _ => l.length
  decreasing_by
  · simp only [List.length_take, sortByKey_length, List.length_cons]
    omega
  · simp only [List.length_drop, sortByKey_length, List.length_cons]
    omega

/-- Modelled from the spec: vec3.rs is not in the provided sources; §4.4
describes the metal outgoing direction as the mirror reflection of the
incoming direction about the normal, `v − 2(v·n)n`. -/
def reflect (v n : Vec3) : Vec3 :=
  Vec3.sub v (Vec3.smul (2 * Vec3.dot v n) n)

/-- `schlick` (material.rs): `r0 + (1 − r0)(1 − cosθ)^5` with
`r0 = ((1 − n)/(1 + n))²`. -/
def schlick (cosine refraction_index : ℚ) : ℚ :=
  let r0 := (1 - refraction_index) / (1 + refraction_index)
  let r0 := r0 * r0
  r0 + (1 - r0) * (1 - cosine) ^ 5

/-- External collaborators of the scattering and rendering code that live in
files not provided with the sources (vec3.rs, rng.rs, camera.rs): the f32
square root, `random_in_unit_sphere`, `refract` (which reports total internal
reflection as `None`), `Camera::get_ray` and `Random::create_with_seed`.
Theorems quantify over this record, constraining the fields only where a
claim needs it. -/
structure Ambient where
  sq : ℚ → ℚ
  random_in_unit_sphere : Rnd → Vec3 × Rnd
  refract : Vec3 → Vec3 → ℚ → Option Vec3
  get_ray : ℚ → ℚ → Rnd → Ray × Rnd
  create_with_seed : ℕ → Rnd

/-- The outward normal chosen by `Dielectric::scatter`: the stored normal is
flipped when the ray exits the surface (`dot(direction, normal) > 0`). -/
def dielectric_outward_normal (ray : Ray) (rec : HitRecord) : Vec3 :=
  if 0 < Vec3.dot ray.direction rec.normal then Vec3.smul (-1) rec.normal
  else rec.normal

/-- The index ratio chosen by `Dielectric::scatter`. -/
def dielectric_ni_over_nt (ri : ℚ) (ray : Ray) (rec : HitRecord) : ℚ :=
  if 0 < Vec3.dot ray.direction rec.normal then ri else 1 / ri

/-- The cosine fed to `schlick` by `Dielectric::scatter`. -/
def dielectric_cosine (sq : ℚ → ℚ) (ri : ℚ) (ray : Ray) (rec : HitRecord) : ℚ :=
  let idn := Vec3.dot ray.direction rec.normal
  if 0 < idn then ri * idn / sq (Vec3.square_length ray.direction)
  else -idn / sq (Vec3.square_length ray.direction)

/-- `Material::scatter` (material.rs), all three variants.  The result
bundles the returned bool, the attenuation and scattered-ray out-parameters,
and the advanced random generator. -/
def Material.scatter (ext : Ambient) :
    Material → Ray → HitRecord → Rnd → Bool × Vec3 × Ray × Rnd
  | .lambertian albedo, _, rec, rnd =>
    let drawn := ext.random_in_unit_sphere rnd
    let target := Vec3.add (Vec3.add rec.p rec.normal) drawn.1
    (true, albedo, ⟨rec.p, Vec3.sub target rec.p⟩, drawn.2)
  | .metal albedo, ray, rec, rnd =>
    let reflected := reflect (ray.direction.make_normalised ext.sq) rec.normal
    (decide (0 < Vec3.dot reflected rec.normal), albedo, ⟨rec.p, reflected⟩, rnd)
  | .dielectric ri, ray, rec, rnd =>
    let reflected := reflect ray.direction rec.normal
    let attenuation : Vec3 := ⟨1, 1, 1⟩
    let outward_normal := dielectric_outward_normal ray rec
    let ni_over_nt := dielectric_ni_over_nt ri ray rec
    let cosine := dielectric_cosine ext.sq ri ray rec
    match ext.refract ray.direction outward_normal ni_over_nt with
    | none => (true, attenuation, ⟨rec.p, reflected⟩, rnd)
    | some refracted =>
      let reflect_prob := schlick cosine ri
      let drawn := rnd.gen
      if drawn.1 < reflect_prob then
        (true, attenuation, ⟨rec.p, reflected⟩, drawn.2)
      else
        (true, attenuation, ⟨rec.p, refracted⟩, drawn.2)

/-- `MAX_THING`, the upper bound `colour` passes to the hit query. -/
def maxThing : ℚ := 10 ^ 10

/-- The sky gradient returned by `colour` on a miss:
`(1,1,1)·(1−t) + (0.5,0.7,1.0)·t` with `t = 0.5·(normalized_direction.y + 1)`. -/
def skyColour (sq : ℚ → ℚ) (ray : Ray) : Vec3 :=
  let direction := ray.direction.make_normalised sq
  let t := (1 / 2 : ℚ) * (direction.y + 1)
  Vec3.add (Vec3.smul (1 - t) ⟨1, 1, 1⟩) (Vec3.smul t ⟨1 / 2, 7 / 10, 1⟩)

/-- `colour` (main.rs): query the nearest hit over `(0.001, MAX_THING)`;
miss renders the sky; a hit scatters if `depth < 20` and the material
scatters, multiplying the attenuation into the recursive radiance, and
otherwise contributes black. -/
def colour (ext : Ambient) (world : HTree) : Ray → Rnd → ℕ → Vec3 × Rnd :=
  fun ray rnd depth =>
    match world.hit ext.sq ray (1 / 1000) maxThing with
    | none => (skyColour ext.sq ray, rnd)
    | some rec =>
      if h : depth < 20 then
        let scat := rec.material.scatter ext ray rec rnd
        if scat.1 then
          let recCol := colour ext world scat.2.2.1 scat.2.2.2 (depth + 1)
          (Vec3.direct_product scat.2.1 recCol.1, recCol.2)
        else
          (vzero, scat.2.2.2)
      else
        (vzero, rnd)
  termination_by _ _ depth => 20 - depth

/-- Fuel-indexed restatement of `colour`: the fuel counts the scattering
events still allowed before the depth cap forces black. -/
def colourFuel (ext : Ambient) (world : HTree) : Ray → Rnd → ℕ → Vec3 × Rnd
  | ray, rnd, fuel =>
    match world.hit ext.sq ray (1 / 1000) maxThing with
    | none => (skyColour ext.sq ray, rnd)
    | some rec =>
      match fuel with
      | 0 => (vzero, rnd)
      | fuel + 1 =>
        let scat := rec.material.scatter ext ray rec rnd
        if scat.1 then
          let recCol := colourFuel ext world scat.2.2.1 scat.2.2.2 fuel
          (Vec3.direct_product scat.2.1 recCol.1, recCol.2)
        else
          (vzero, scat.2.2.2)

/-- `Sphere::hit` with no upper bound on `t`: the roots are only required to
exceed `t_min`.  Used to express the spec's hit query over `(ε, +∞)`. -/
def Sphere.hitNoUpper (sq : ℚ → ℚ) (s : Sphere) (ray : Ray) (t_min : ℚ) :
    Option HitRecord :=
  let oc := Vec3.sub ray.origin s.center
  let a := Vec3.square_length ray.direction
  let b := Vec3.dot oc ray.direction
  let c := Vec3.square_length oc - s.radius * s.radius
  let discriminant := b * b - a * c
  if 0 < discriminant then
    let tmp := (-b - sq discriminant) / a
    if t_min < tmp then
      some (sphereRecord s ray tmp)
    else
      let tmp2 := (-b + sq discriminant) / a
      if t_min < tmp2 then
        some (sphereRecord s ray tmp2)
      else
        none
  else
    none

/-- Brute-force nearest hit over `(t_min, +∞)`. -/
def linearScanNoUpper (sq : ℚ → ℚ) (ps : List Sphere) (ray : Ray) (t_min : ℚ) :
    Option HitRecord :=
  ps.foldl
    (fun acc p =>
      match acc, p.hitNoUpper sq ray t_min with
      | none, h => h
      | some a, none => some a
      | some a, some h => if h.t < a.t then some h else some a)
    none

/-- The radiance integrator as the spec words it (§4.5): identical to
`colour` except that the nearest-hit query runs over `(ε, +∞)` — no upper
bound — with ε the same small positive epsilon.  Stated over the scene's
primitive list; compared against `colour` for the refinement claim. -/
def colourSpec (ext : Ambient) (world : List Sphere) : Ray → Rnd → ℕ → Vec3 × Rnd :=
  fun ray rnd depth =>
    match linearScanNoUpper ext.sq world ray (1 / 1000) with
    | none => (skyColour ext.sq ray, rnd)
    | some rec =>
      if h : depth < 20 then
        let scat := rec.material.scatter ext ray rec rnd
        if scat.1 then
          let recCol := colourSpec ext world scat.2.2.1 scat.2.2.2 (depth + 1)
          (Vec3.direct_product scat.2.1 recCol.1, recCol.2)
        else
          (vzero, scat.2.2.2)
      else
        (vzero, rnd)
  termination_by _ _ depth => 20 - depth

/-- `get_segment` (main.rs): the contiguous band of rows a worker thread
renders; the last band absorbs the remainder. -/
def get_segment (thread_count thread_index ny : ℕ) : ℕ × ℕ :=
  let segment_size := ny / thread_count
  let lower := segment_size * thread_index
  let upper :=
    if thread_index = thread_count - 1 then ny
    else segment_size * (thread_index + 1)
  (lower, upper)

/-- The row indices a worker walks: `(y0..y1).rev()`, top row first. -/
def bandYs (thread_count thread_index ny : ℕ) : List ℕ :=
  let seg := get_segment thread_count thread_index ny
  (List.range' seg.1 (seg.2 - seg.1)).reverse

/-- Map with a threaded state, preserving order (the worker loops thread the
random generator through every sample). -/
def mapWithState (f : α → σ → β × σ) : List α → σ → List β × σ
  | [], s => ([], s)
  | a :: as, s =>
    let b := f a s
    let bs := mapWithState f as b.2
    (b.1 :: bs.1, bs.2)

/-- The per-pixel sample loop of the worker closure in `render_multi_thread`
(main.rs): accumulate `samples_per_pixel` jittered samples of `colour` at
depth 1, average, then gamma-correct with a square root per channel. -/
def renderPixel (ext : Ambient) (world : HTree) (nx ny spp : ℕ) (x y : ℕ)
    (rnd : Rnd) : Vec3 × Rnd :=
  let nxd : ℚ := nx
  let nyd : ℚ := ny
  let xd : ℚ := x
  let yd : ℚ := y
  let step := fun (_ : ℕ) (st : Vec3 × Rnd) =>
    let g1 := st.2.gen
    let u := (xd + g1.1) / nxd
    let g2 := g1.2.gen
    let v := (yd + g2.1) / nyd
    let ray := ext.get_ray u v g2.2
    let c := colour ext world ray.1 ray.2 1
    (Vec3.add st.1 c.1, c.2)
  let acc := (List.range spp).foldl (fun st i => step i st) (vzero, rnd)
  let spd : ℚ := spp
  let col := Vec3.divs acc.1 spd
  (⟨ext.sq col.x, ext.sq col.y, ext.sq col.z⟩, acc.2)

/-- One row of a worker's band: columns left to right. -/
def renderRow (ext : Ambient) (world : HTree) (nx ny spp : ℕ) (y : ℕ)
    (rnd : Rnd) : List Vec3 × Rnd :=
  mapWithState (fun x st => renderPixel ext world nx ny spp x y st)
    (List.range nx) rnd

/-- A worker's rows, keyed by row index, in the order it renders them. -/
def workerRows (ext : Ambient) (world : HTree) (nx ny spp tc : ℕ) (i : ℕ) :
    List (ℕ × List Vec3) :=
  (mapWithState
    (fun y st =>
      let row := renderRow ext world nx ny spp y st
      ((y, row.1), row.2))
    (bandYs tc i ny) (ext.create_with_seed (1234 * i))).1

/-- A worker's output buffer: its rows concatenated. -/
def workerBuffer (ext : Ambient) (world : HTree) (nx ny spp tc : ℕ) (i : ℕ) :
    List Vec3 :=
  ((workerRows ext world nx ny spp tc i).map Prod.snd).flatten

/-- `render_multi_thread` (main.rs): workers are spawned for
`thread_index in (0..thread_count).rev()`, each seeded with
`1234 * thread_index`, and their buffers are appended in that same order
once joined. -/
def render_multi_thread (ext : Ambient) (world : HTree) (nx ny spp tc : ℕ) :
    List Vec3 :=
  (((List.range tc).reverse).map (workerBuffer ext world nx ny spp tc)).flatten

/-- The worker index whose band contains row `y`. -/
def rowOwner (tc ny y : ℕ) : ℕ :=
  let seg := ny / tc
  if seg = 0 then tc - 1 else Min.min (y / seg) (tc - 1)

/-- The content computed for row `y` by the worker that owns it. -/
def rowContent (ext : Ambient) (world : HTree) (nx ny spp tc : ℕ) (y : ℕ) :
    List Vec3 :=
  ((workerRows ext world nx ny spp tc (rowOwner tc ny y)).lookup y).getD []

/-- The nearer root `(−b − √disc)/a` tried first by `Sphere::hit`. -/
def sphereRoot1 (sq : ℚ → ℚ) (s : Sphere) (ray : Ray) : ℚ :=
  (-(sphereB s ray) - sq (sphereDisc s ray)) / Vec3.square_length ray.direction

/-- The farther root `(−b + √disc)/a` tried second by `Sphere::hit`. -/
def sphereRoot2 (sq : ℚ → ℚ) (s : Sphere) (ray : Ray) : ℚ :=
  (-(sphereB s ray) + sq (sphereDisc s ray)) / Vec3.square_length ray.direction

theorem square_length_pos (v : Vec3) (h : v ≠ vzero) : 0 < Vec3.square_length v := by
  have hnn : (0 : ℚ) ≤ v.x * v.x + v.y * v.y + v.z * v.z :=
    add_nonneg (add_nonneg (mul_self_nonneg _) (mul_self_nonneg _)) (mul_self_nonneg _)
  rcases lt_or_eq_of_le hnn with hlt | heq
  · simpa [Vec3.square_length, Vec3.dot] using hlt
  · exfalso
    apply h
    have hx : v.x = 0 := by nlinarith [mul_self_nonneg v.x, mul_self_nonneg v.y, mul_self_nonneg v.z]
    have hy : v.y = 0 := by nlinarith [mul_self_nonneg v.x, mul_self_nonneg v.y, mul_self_nonneg v.z]
    have hz : v.z = 0 := by nlinarith [mul_self_nonneg v.x, mul_self_nonneg v.y, mul_self_nonneg v.z]
    have hv : v = ⟨v.x, v.y, v.z⟩ := rfl
    rw [hv, hx, hy, hz]
    rfl

/-- Unfolding of `Sphere.hit` in terms of the named discriminant and roots. -/
theorem sphere_hit_eq (sq : ℚ → ℚ) (s : Sphere) (ray : Ray) (t_min t_max : ℚ) :
    s.hit sq ray t_min t_max =
      if 0 < sphereDisc s ray then
        if sphereRoot1 sq s ray < t_max ∧ t_min < sphereRoot1 sq s ray then
          some (sphereRecord s ray (sphereRoot1 sq s ray))
        else if sphereRoot2 sq s ray < t_max ∧ t_min < sphereRoot2 sq s ray then
          some (sphereRecord s ray (sphereRoot2 sq s ray))
        else none
      else none := by
  simp only [Sphere.hit, sphereDisc, sphereRoot1, sphereRoot2, sphereB]

/-- C2: if the discriminant `b² − a·c` is at most 0, `Sphere::hit` returns
no hit; if it is positive (and the ray direction is nonzero, so the leading
coefficient `a` is positive, and the externally computed square root is
nonnegative), the nearer root `(−b − √disc)/a` is at most the farther root
`(−b + √disc)/a`, the nearer root is returned whenever it lies strictly
inside `(t_min, t_max)`, the farther root is returned when the nearer root
is out of range but the farther is in range, nothing is returned when both
are out of range, and when both roots are in range the returned `t` is the
smaller of the two. -/
theorem sphere_hit_roots (sq : ℚ → ℚ) (s : Sphere) (ray : Ray) (t_min t_max : ℚ) :
    (sphereDisc s ray ≤ 0 → s.hit sq ray t_min t_max = none) ∧
    (ray.direction ≠ vzero → 0 ≤ sq (sphereDisc s ray) → 0 < sphereDisc s ray →
      sphereRoot1 sq s ray ≤ sphereRoot2 sq s ray ∧
      (t_min < sphereRoot1 sq s ray → sphereRoot1 sq s ray < t_max →
        s.hit sq ray t_min t_max = some (sphereRecord s ray (sphereRoot1 sq s ray))) ∧
      (¬(t_min < sphereRoot1 sq s ray ∧ sphereRoot1 sq s ray < t_max) →
        t_min < sphereRoot2 sq s ray → sphereRoot2 sq s ray < t_max →
        s.hit sq ray t_min t_max = some (sphereRecord s ray (sphereRoot2 sq s ray))) ∧
      (¬(t_min < sphereRoot1 sq s ray ∧ sphereRoot1 sq s ray < t_max) →
        ¬(t_min < sphereRoot2 sq s ray ∧ sphereRoot2 sq s ray < t_max) →
        s.hit sq ray t_min t_max = none) ∧
      (t_min < sphereRoot1 sq s ray → sphereRoot1 sq s ray < t_max →
        Option.map HitRecord.t (s.hit sq ray t_min t_max) =
          some (Min.min (sphereRoot1 sq s ray) (sphereRoot2 sq s ray)))) := by
  constructor
  · intro hle
    rw [sphere_hit_eq]
    simp [not_lt.mpr hle]
  · intro hd hsq hpos
    have ha : 0 < Vec3.square_length ray.direction := square_length_pos _ hd
    have hroots : sphereRoot1 sq s ray ≤ sphereRoot2 sq s ray := by
      unfold sphereRoot1 sphereRoot2
      rw [div_le_div_iff₀ ha ha]
      nlinarith
    refine ⟨hroots, ?_, ?_, ?_, ?_⟩
    · intro h1 h2
      rw [sphere_hit_eq]
      simp [hpos, h1, h2]
    · intro hn h1 h2
      rw [sphere_hit_eq]
      rw [if_pos hpos, if_neg (by tauto), if_pos ⟨h2, h1⟩]
    · intro hn1 hn2
      rw [sphere_hit_eq]
      rw [if_pos hpos, if_neg (by tauto), if_neg (by tauto)]
    · intro h1 h2
      rw [sphere_hit_eq]
      rw [if_pos hpos, if_pos ⟨h2, h1⟩, min_eq_left hroots]
      rfl

/-- A square-root oracle exact on the inputs the witness scenes produce. -/
def witSq : ℚ → ℚ := fun d =>
  if d = 1 then 1 else if d = 9 / 100 then 3 / 10 else if d = 4 then 2 else 0

/-- Witness sphere: unit sphere at (5,0,0). -/
def witSphere : Sphere := ⟨⟨5, 0, 0⟩, 1, .lambertian ⟨1, 1, 1⟩⟩

/-- Witness ray: origin, pointing along +x. -/
def witRay : Ray := ⟨vzero, ⟨1, 0, 0⟩⟩

theorem sphere_hit_roots_witness :
    Sphere.hit witSq witSphere witRay 0 10 = some (sphereRecord witSphere witRay 4) := by
  have hdisc : sphereDisc witSphere witRay = 1 := by
    norm_num [sphereDisc, sphereB, Vec3.square_length, Vec3.dot, Vec3.sub,
      witSphere, witRay, vzero]
  have hsq1 : witSq 1 = 1 := by norm_num [witSq]
  have hb : sphereB witSphere witRay = -5 := by
    norm_num [sphereB, Vec3.dot, Vec3.sub, witSphere, witRay, vzero]
  have ha : Vec3.square_length witRay.direction = 1 := by
    norm_num [Vec3.square_length, Vec3.dot, witRay]
  have hroot1 : sphereRoot1 witSq witSphere witRay = 4 := by
    rw [sphereRoot1, hdisc, hsq1, hb, ha]; norm_num
  have hd : witRay.direction ≠ vzero := by
    simp [witRay, vzero, Vec3.mk.injEq]
  have hs : 0 ≤ witSq (sphereDisc witSphere witRay) := by rw [hdisc, hsq1]; norm_num
  have hp : 0 < sphereDisc witSphere witRay := by rw [hdisc]; norm_num
  have h := ((sphere_hit_roots witSq witSphere witRay 0 10).2 hd hs hp).2.1
    (by rw [hroot1]; norm_num) (by rw [hroot1]; norm_num)
  rw [h, hroot1]

/-- C7: `Metal::scatter` reflects the normalized incoming direction about the
surface normal, attenuates by the albedo, leaves the generator untouched, and
reports absorption exactly when the reflected direction has nonpositive dot
product with the normal; whenever the externally computed length of the
incoming direction is positive and squares back to the squared length, the
outgoing direction is a positive multiple of the mirror reflection of the
(unnormalized) incoming direction. -/
theorem metal_scatter_props (ext : Ambient) (albedo : Vec3) (ray : Ray)
    (rec : HitRecord) (rnd : Rnd) :
    (Material.metal albedo).scatter ext ray rec rnd =
      (decide (0 < Vec3.dot (reflect (ray.direction.make_normalised ext.sq) rec.normal) rec.normal),
        albedo, ⟨rec.p, reflect (ray.direction.make_normalised ext.sq) rec.normal⟩, rnd) ∧
    (((Material.metal albedo).scatter ext ray rec rnd).1 = false ↔
      Vec3.dot (reflect (ray.direction.make_normalised ext.sq) rec.normal) rec.normal ≤ 0) ∧
    (0 < ext.sq (Vec3.square_length ray.direction) →
      reflect (ray.direction.make_normalised ext.sq) rec.normal =
        Vec3.smul (1 / ext.sq (Vec3.square_length ray.direction))
          (reflect ray.direction rec.normal) ∧
      0 < 1 / ext.sq (Vec3.square_length ray.direction)) := by
  refine ⟨rfl, ?_, ?_⟩
  · simp [Material.scatter, not_lt]
  · intro hpos
    constructor
    · simp only [reflect, Vec3.make_normalised, Vec3.divs, Vec3.smul, Vec3.sub,
        Vec3.dot, Vec3.mk.injEq]
      have hne : ext.sq (Vec3.square_length ray.direction) ≠ 0 := ne_of_gt hpos
      refine ⟨?_, ?_, ?_⟩ <;> field_simp
    · positivity

/-- C8: `Dielectric::scatter` always scatters with attenuation (1,1,1); on
total internal reflection (the external `refract` returns `None`) the
outgoing direction is the mirror reflection; otherwise reflection is chosen
over refraction exactly when the uniform draw is below the Schlick
reflectance; `schlick` computes `r0 + (1−r0)(1−cosθ)^5` with
`r0 = ((1−n)/(1+n))²`, so for n = 3/2 and cosθ = 1 it is 1/25 = 0.04. -/
theorem dielectric_scatter_props (ext : Ambient) (ri : ℚ) (ray : Ray)
    (rec : HitRecord) (rnd : Rnd) :
    ((Material.dielectric ri).scatter ext ray rec rnd).1 = true ∧
    ((Material.dielectric ri).scatter ext ray rec rnd).2.1 = ⟨1, 1, 1⟩ ∧
    (ext.refract ray.direction (dielectric_outward_normal ray rec)
        (dielectric_ni_over_nt ri ray rec) = none →
      ((Material.dielectric ri).scatter ext ray rec rnd).2.2.1 =
        ⟨rec.p, reflect ray.direction rec.normal⟩ ∧
      ((Material.dielectric ri).scatter ext ray rec rnd).2.2.2 = rnd) ∧
    (∀ refracted,
      ext.refract ray.direction (dielectric_outward_normal ray rec)
          (dielectric_ni_over_nt ri ray rec) = some refracted →
      ((Material.dielectric ri).scatter ext ray rec rnd).2.2.1 =
        ⟨rec.p,
          if (rnd.gen).1 < schlick (dielectric_cosine ext.sq ri ray rec) ri then
            reflect ray.direction rec.normal
          else refracted⟩) ∧
    (∀ cosine n, schlick cosine n =
      ((1 - n) / (1 + n)) * ((1 - n) / (1 + n)) +
        (1 - ((1 - n) / (1 + n)) * ((1 - n) / (1 + n))) * (1 - cosine) ^ 5) ∧
    schlick 1 (3 / 2) = 1 / 25 := by
  refine ⟨?_, ?_, ?_, ?_, fun cosine n => rfl, by norm_num [schlick]⟩
  · simp only [Material.scatter]
    rcases hrf : ext.refract ray.direction (dielectric_outward_normal ray rec)
      (dielectric_ni_over_nt ri ray rec) with _ | refracted
    · simp [hrf]
    · simp only [hrf]
      split <;> rfl
  · simp only [Material.scatter]
    rcases hrf : ext.refract ray.direction (dielectric_outward_normal ray rec)
      (dielectric_ni_over_nt ri ray rec) with _ | refracted
    · simp [hrf]
    · simp only [hrf]
      split <;> rfl
  · intro hrf
    simp [Material.scatter, hrf]
  · intro refracted hrf
    simp only [Material.scatter, hrf]
    split <;> simp_all

/-- The constant-zero random stream, used by concrete instances. -/
def rnd0 : Rnd := fun _ => 0

/-- A concrete external environment for witnesses and counterexamples. -/
def witExt : Ambient where
  sq := witSq
  random_in_unit_sphere := fun r => (⟨1, 0, 0⟩, r)
  refract := fun _ _ _ => none
  get_ray := fun _ _ r => (witRay, r)
  create_with_seed := fun _ => rnd0

/-- A ray of squared length 4 along +y. -/
def witRayUp : Ray := ⟨vzero, ⟨0, 2, 0⟩⟩

/-- A hit record with unit normal +y and a metal material. -/
def witRec : HitRecord := ⟨4, vzero, ⟨0, 1, 0⟩, .metal ⟨1, 1, 1⟩⟩

theorem metal_scatter_props_witness :
    reflect (witRayUp.direction.make_normalised witExt.sq) witRec.normal =
      Vec3.smul (1 / witExt.sq (Vec3.square_length witRayUp.direction))
        (reflect witRayUp.direction witRec.normal) ∧
    0 < 1 / witExt.sq (Vec3.square_length witRayUp.direction) :=
  (metal_scatter_props witExt ⟨1, 1, 1⟩ witRayUp witRec rnd0).2.2
    (by norm_num [witExt, witSq, witRayUp, Vec3.square_length, Vec3.dot])

theorem dielectric_scatter_props_witness :
    ((Material.dielectric (3 / 2)).scatter witExt witRayUp witRec rnd0).2.2.1 =
      ⟨witRec.p, reflect witRayUp.direction witRec.normal⟩ ∧
    schlick 1 (3 / 2) = 1 / 25 :=
  ⟨((dielectric_scatter_props witExt (3 / 2) witRayUp witRec rnd0).2.2.1 rfl).1,
   (dielectric_scatter_props witExt (3 / 2) witRayUp witRec rnd0).2.2.2.2.2⟩

/-- C3 (amended): `colour` queries the nearest hit over the bounded interval
`(0.001, 10^10)` (the source's `MAX_THING = 1.0e10`), and for every ray whose
query over that interval finds nothing it returns exactly the sky gradient
`lerp(white, sky_blue, t)` with `t = 0.5·(normalized_ray_direction.y + 1)`. -/
theorem colour_miss_sky (ext : Ambient) (world : HTree) (ray : Ray) (rnd : Rnd)
    (depth : ℕ) (h : HTree.hit ext.sq world ray (1 / 1000) maxThing = none) :
    (colour ext world ray rnd depth).1 =
      Vec3.add
        (Vec3.smul (1 - 1 / 2 * ((ray.direction.make_normalised ext.sq).y + 1))
          ⟨1, 1, 1⟩)
        (Vec3.smul (1 / 2 * ((ray.direction.make_normalised ext.sq).y + 1))
          ⟨1 / 2, 7 / 10, 1⟩) ∧
    maxThing = 10 ^ 10 := by
  constructor
  · rw [colour, h]
    simp [skyColour]
  · rfl

/-- A sphere the witness ray misses entirely (negative discriminant). -/
def missSphere : Sphere := ⟨⟨0, 100, 0⟩, 1, .lambertian ⟨1, 1, 1⟩⟩

theorem colour_miss_sky_witness :
    (colour witExt (.leaf missSphere) witRay rnd0 1).1 =
      Vec3.add
        (Vec3.smul (1 - 1 / 2 * ((witRay.direction.make_normalised witExt.sq).y + 1))
          ⟨1, 1, 1⟩)
        (Vec3.smul (1 / 2 * ((witRay.direction.make_normalised witExt.sq).y + 1))
          ⟨1 / 2, 7 / 10, 1⟩) ∧
    maxThing = 10 ^ 10 := by
  apply colour_miss_sky
  show Sphere.hit witExt.sq missSphere witRay (1 / 1000) maxThing = none
  rw [sphere_hit_eq]
  have hd : sphereDisc missSphere witRay = -9999 := by
    norm_num [sphereDisc, sphereB, Vec3.square_length, Vec3.dot, Vec3.sub,
      missSphere, witRay, vzero]
  rw [hd]
  norm_num

/-- Multiplying a zero attenuation into any radiance gives black. -/
theorem direct_product_zero (v : Vec3) : Vec3.direct_product vzero v = vzero := by
  simp [Vec3.direct_product, vzero]

/-- A black-albedo diffuse sphere beyond the `MAX_THING = 10^10` horizon:
its nearer intersection with `upRay` is at `t = 2·10^10 − 1`. -/
def farSphere : Sphere := ⟨⟨0, 2 * 10 ^ 10, 0⟩, 1, .lambertian vzero⟩

/-- Unit ray along +y from the origin. -/
def upRay : Ray := ⟨vzero, ⟨0, 1, 0⟩⟩

theorem farSphere_disc : sphereDisc farSphere upRay = 1 := by
  norm_num [sphereDisc, sphereB, Vec3.square_length, Vec3.dot, Vec3.sub,
    farSphere, upRay, vzero]

theorem farSphere_b : sphereB farSphere upRay = -(2 * 10 ^ 10) := by
  norm_num [sphereB, Vec3.dot, Vec3.sub, farSphere, upRay, vzero]

theorem farSphere_a : Vec3.square_length upRay.direction = 1 := by
  norm_num [Vec3.square_length, Vec3.dot, upRay]

/-- The hit record of `farSphere` at its nearer root. -/
theorem farSphere_scan :
    linearScanNoUpper witSq [farSphere] upRay (1 / 1000) =
      some (sphereRecord farSphere upRay (2 * 10 ^ 10 - 1)) := by
  have h : Sphere.hitNoUpper witSq farSphere upRay (1 / 1000) =
      some (sphereRecord farSphere upRay (2 * 10 ^ 10 - 1)) := by
    rw [Sphere.hitNoUpper]
    have hd : Vec3.dot (Vec3.sub upRay.origin farSphere.center) upRay.direction *
        Vec3.dot (Vec3.sub upRay.origin farSphere.center) upRay.direction -
        Vec3.square_length upRay.direction *
          (Vec3.square_length (Vec3.sub upRay.origin farSphere.center) -
            farSphere.radius * farSphere.radius) = 1 := by
      have := farSphere_disc
      simpa [sphereDisc, sphereB] using this
    rw [hd]
    norm_num [witSq, sphereB, Vec3.dot, Vec3.sub, Vec3.square_length,
      farSphere, upRay, vzero]
  simp only [linearScanNoUpper, List.foldl_cons, List.foldl_nil]
  rw [h]

/-- C3 counterexample: `colour` does not query over `(ε, +∞)`.  For a scene
whose only sphere lies past `10^10`, the brute-force query over `(ε, +∞)`
finds a hit at `t = 2·10^10 − 1`, and the spec-faithful integrator
`colourSpec` (which queries `(ε, +∞)`) returns black through the
black-albedo scatter, yet `colour` returns the sky gradient. -/
theorem colour_query_bound_cex :
    (colour witExt (.leaf farSphere) upRay rnd0 1).1 = ⟨1 / 2, 7 / 10, 1⟩ ∧
    Option.map HitRecord.t (linearScanNoUpper witExt.sq [farSphere] upRay (1 / 1000)) =
      some (2 * 10 ^ 10 - 1) ∧
    (colourSpec witExt [farSphere] upRay rnd0 1).1 = vzero ∧
    (⟨1 / 2, 7 / 10, 1⟩ : Vec3) ≠ vzero := by
  have hsqext : witExt.sq = witSq := rfl
  refine ⟨?_, ?_, ?_, ?_⟩
  · have hmiss : HTree.hit witExt.sq (.leaf farSphere) upRay (1 / 1000) maxThing = none := by
      show Sphere.hit witExt.sq farSphere upRay (1 / 1000) maxThing = none
      rw [hsqext, sphere_hit_eq, farSphere_disc]
      have h1 : sphereRoot1 witSq farSphere upRay = 2 * 10 ^ 10 - 1 := by
        rw [sphereRoot1, farSphere_disc, farSphere_b, farSphere_a]
        norm_num [witSq]
      have h2 : sphereRoot2 witSq farSphere upRay = 2 * 10 ^ 10 + 1 := by
        rw [sphereRoot2, farSphere_disc, farSphere_b, farSphere_a]
        norm_num [witSq]
      rw [h1, h2]
      norm_num [maxThing]
    rw [colour, hmiss]
    show skyColour witExt.sq upRay = _
    rw [skyColour, hsqext]
    have hy : (upRay.direction.make_normalised witSq).y = 1 := by
      rw [Vec3.make_normalised, farSphere_a]
      norm_num [witSq, Vec3.divs, upRay]
    rw [hy]
    norm_num [Vec3.add, Vec3.smul]
  · rw [hsqext, farSphere_scan]
    rfl
  · rw [colourSpec, hsqext, farSphere_scan]
    have hmat : (sphereRecord farSphere upRay (2 * 10 ^ 10 - 1)).material =
        .lambertian vzero := rfl
    simp only [hmat]
    norm_num [Material.scatter, direct_product_zero]
  · simp [vzero, Vec3.mk.injEq]

theorem colour_fuel_aux (ext : Ambient) (world : HTree) :
    ∀ (n depth : ℕ), 20 - depth = n → ∀ (ray : Ray) (rnd : Rnd),
      colour ext world ray rnd depth = colourFuel ext world ray rnd n := by
  intro n
  induction n with
  | zero =>
    intro depth h ray rnd
    rw [colour, colourFuel]
    cases hh : HTree.hit ext.sq world ray (1 / 1000) maxThing with
    | none => rfl
    | some rec =>
      have : ¬ depth < 20 := by omega
      simp [this]
  | succ n ih =>
    intro depth h ray rnd
    rw [colour, colourFuel]
    cases hh : HTree.hit ext.sq world ray (1 / 1000) maxThing with
    | none => rfl
    | some rec =>
      have hlt : depth < 20 := by omega
      simp only [hlt, dif_pos]
      have hrec : 20 - (depth + 1) = n := by omega
      rcases hs : Material.scatter ext rec.material ray rec rnd with ⟨ok, rest⟩
      cases ok
      · simp
      · simp only [ih (depth + 1) hrec]

/-- C10: the radiance integrator terminates with a depth cap of 20: `colour`
at depth `d` equals the structurally recursive `colourFuel` with `20 − d`
scattering events of fuel; the render workers invoke `colour` at depth 1,
so every camera-ray path performs at most 19 scattering events before the
cap forces black; and once the depth reaches 20 a hit contributes black
without recursing. -/
theorem colour_terminates (ext : Ambient) (world : HTree) :
    (∀ (depth : ℕ) (ray : Ray) (rnd : Rnd),
      colour ext world ray rnd depth = colourFuel ext world ray rnd (20 - depth)) ∧
    (∀ (ray : Ray) (rnd : Rnd),
      colour ext world ray rnd 1 = colourFuel ext world ray rnd 19) ∧
    (∀ (depth : ℕ) (ray : Ray) (rnd : Rnd), 20 ≤ depth →
      ∀ rec, HTree.hit ext.sq world ray (1 / 1000) maxThing = some rec →
        colour ext world ray rnd depth = (vzero, rnd)) := by
  refine ⟨fun depth ray rnd => colour_fuel_aux ext world (20 - depth) depth rfl ray rnd,
    fun ray rnd => colour_fuel_aux ext world 19 1 rfl ray rnd, ?_⟩
  intro depth ray rnd hdepth rec hrec
  rw [colour, hrec]
  have : ¬ depth < 20 := by omega
  simp [this]

theorem build_isSome : ∀ (ls : List Sphere) (rnd : Rnd), ls ≠ [] →
    (build_bvh_tree ls rnd).isSome = true := by
  intro ls rnd
  induction ls, rnd using build_bvh_tree.induct with
  | case1 rnd => intro h; exact absurd rfl h
  | case2 p rnd => intro _; simp [build_bvh_tree]
  | case3 p q rnd => intro _; simp [build_bvh_tree]
  | case4 p q r rest rnd drawn axis sorted first hnone ih =>
    intro _
    exfalso
    unfold first at hnone ih
    unfold sorted axis drawn at hnone ih
    have := ih (List.length_pos.mp (by
      simp only [List.length_take, sortByKey_length, List.length_cons]
      omega))
    rw [hnone] at this
    simp at this
  | case5 p q r rest rnd drawn axis sorted first second lt rnd2 h1 hnone ihf ihs =>
    intro _
    exfalso
    unfold second at hnone ihs
    unfold sorted axis drawn at hnone ihs
    have := ihs (List.length_pos.mp (by
      simp only [List.length_drop, sortByKey_length, List.length_cons]
      omega))
    rw [hnone] at this
    simp at this
  | case6 p q r rest rnd drawn axis sorted first second lt rnd2 h1 rt rnd3 h2 ihf ihs =>
    intro _
    unfold first at h1
    unfold second at h2
    unfold sorted axis drawn at h1 h2
    simp only [build_bvh_tree]
    rw [h1]
    dsimp only
    rw [h2]
    rfl

/-- C6: BVH construction terminates (modelled by totality: it produces a
tree) for every non-empty input; at each recursive step on `n ≥ 3` elements
the split at index `n/2` of the sorted collection yields two strictly
smaller non-empty halves; and empty input is not a handled case (the source
recursion never reaches a base case there — the model marks it `none`). -/
theorem build_bvh_tree_total (ls : List Sphere) (rnd : Rnd) :
    (ls ≠ [] → (build_bvh_tree ls rnd).isSome = true) ∧
    (3 ≤ ls.length → ∀ axis : ℕ,
      ((sortByKey axis ls).take ((sortByKey axis ls).length / 2)) ≠ [] ∧
      ((sortByKey axis ls).take ((sortByKey axis ls).length / 2)).length < ls.length ∧
      ((sortByKey axis ls).drop ((sortByKey axis ls).length / 2)) ≠ [] ∧
      ((sortByKey axis ls).drop ((sortByKey axis ls).length / 2)).length < ls.length) ∧
    build_bvh_tree [] rnd = none := by
  refine ⟨build_isSome ls rnd, ?_, by simp [build_bvh_tree]⟩
  intro h3 axis
  refine ⟨List.length_pos.mp ?_, ?_, List.length_pos.mp ?_, ?_⟩ <;>
    simp only [List.length_take, List.length_drop, sortByKey_length] <;> omega

theorem build_bvh_tree_total_witness :
    (build_bvh_tree [witSphere, missSphere, farSphere] rnd0).isSome = true :=
  (build_bvh_tree_total [witSphere, missSphere, farSphere] rnd0).1
    (by simp)

theorem colour_terminates_witness :
    colour witExt (.leaf missSphere) witRay rnd0 1 =
      colourFuel witExt (.leaf missSphere) witRay rnd0 19 :=
  (colour_terminates witExt (.leaf missSphere)).2.1 witRay rnd0

/-- Union of the bounding boxes of a non-empty list of primitives (the empty
case is junk; `build_bvh_tree` rejects empty input). -/
def unionAll : List Sphere → Aabb
  | [] => Aabb.build vzero vzero
  | [s] => s.bounding_box
  | s :: t :: rest => Aabb.surrounding_box s.bounding_box (unionAll (t :: rest))

theorem surrounding_box_comm (a b : Aabb) :
    Aabb.surrounding_box a b = Aabb.surrounding_box b a := by
  simp [Aabb.surrounding_box, min_comm, max_comm]

theorem surrounding_box_assoc (a b c : Aabb) :
    Aabb.surrounding_box (Aabb.surrounding_box a b) c =
      Aabb.surrounding_box a (Aabb.surrounding_box b c) := by
  simp [Aabb.surrounding_box, min_assoc, max_assoc]

theorem surrounding_box_left_comm (a b c : Aabb) :
    Aabb.surrounding_box a (Aabb.surrounding_box b c) =
      Aabb.surrounding_box b (Aabb.surrounding_box a c) := by
  simp [Aabb.surrounding_box, min_left_comm, max_left_comm]

theorem unionAll_cons (s : Sphere) (l : List Sphere) (h : l ≠ []) :
    unionAll (s :: l) = Aabb.surrounding_box s.bounding_box (unionAll l) := by
  cases l with
  | nil => exact absurd rfl h
  | cons t ts => rfl

theorem unionAll_append (l1 l2 : List Sphere) (h1 : l1 ≠ []) (h2 : l2 ≠ []) :
    unionAll (l1 ++ l2) = Aabb.surrounding_box (unionAll l1) (unionAll l2) := by
  induction l1 with
  | nil => exact absurd rfl h1
  | cons s l1 ih =>
    cases l1 with
    | nil => simpa using unionAll_cons s l2 h2
    | cons t ts =>
      rw [List.cons_append, unionAll_cons s ((t :: ts) ++ l2) (by simp),
        ih (by simp), unionAll_cons s (t :: ts) (by simp), surrounding_box_assoc]

theorem unionAll_perm {l1 l2 : List Sphere} (h : l1.Perm l2) :
    unionAll l1 = unionAll l2 := by
  induction h with
  | nil => rfl
  | cons x h ih =>
    rename_i m1 m2
    by_cases hnil : m1 = []
    · subst hnil
      rw [List.Perm.eq_nil h.symm]
    · have h2nil : m2 ≠ [] := fun hh => hnil (List.Perm.eq_nil (hh ▸ h))
      rw [unionAll_cons x _ hnil, unionAll_cons x _ h2nil, ih]
  | swap x y l =>
    cases l with
    | nil => exact surrounding_box_comm _ _
    | cons z zs =>
      rw [unionAll_cons y (x :: z :: zs) (by simp), unionAll_cons x (z :: zs) (by simp),
        unionAll_cons x (y :: z :: zs) (by simp), unionAll_cons y (z :: zs) (by simp),
        surrounding_box_left_comm]
  | trans h1 h2 ih1 ih2 => exact ih1.trans ih2

theorem leaves_ne_nil (t : HTree) : t.leaves ≠ [] := by
  induction t with
  | leaf s => simp [HTree.leaves]
  | node bb l r ihl ihr => simp [HTree.leaves, ihl]

/-- In a well-formed tree the root box is the union over the leaves. -/
theorem wf_box_eq_unionAll (t : HTree) (h : t.wf = true) :
    t.bounding_box = unionAll t.leaves := by
  induction t with
  | leaf s => rfl
  | node bb l r ihl ihr =>
    simp only [HTree.wf, Bool.and_eq_true, decide_eq_true_eq] at h
    obtain ⟨⟨hbb, hl⟩, hr⟩ := h
    show bb = unionAll (l.leaves ++ r.leaves)
    rw [hbb, ihl hl, ihr hr,
      unionAll_append _ _ (leaves_ne_nil l) (leaves_ne_nil r)]

theorem build_wf_leaves : ∀ (ls : List Sphere) (rnd : Rnd) (t : HTree) (rnd2 : Rnd),
    build_bvh_tree ls rnd = some (t, rnd2) → t.wf = true ∧ t.leaves.Perm ls := by
  intro ls rnd
  induction ls, rnd using build_bvh_tree.induct with
  | case1 rnd => intro t rnd2 h; simp [build_bvh_tree] at h
  | case2 p rnd =>
    intro t rnd2 h
    simp only [build_bvh_tree, Option.some.injEq, Prod.mk.injEq] at h
    rw [← h.1]
    exact ⟨rfl, List.Perm.refl _⟩
  | case3 p q rnd =>
    intro t rnd2 h
    simp only [build_bvh_tree, Option.some.injEq, Prod.mk.injEq] at h
    rw [← h.1]
    constructor
    · simp [HTree.wf, HTree.bounding_box]
    · exact List.Perm.refl _
  | case4 p q r rest rnd drawn axis sorted first hnone ih =>
    intro t rnd2 h
    unfold first at hnone
    unfold sorted axis drawn at hnone
    simp only [build_bvh_tree] at h
    rw [hnone] at h
    simp at h
  | case5 p q r rest rnd drawn axis sorted first second lt rnd2 h1 hnone ihf ihs =>
    intro t rnd3 h
    unfold first at h1
    unfold second at hnone
    unfold sorted axis drawn at h1 hnone
    simp only [build_bvh_tree] at h
    rw [h1] at h
    dsimp only at h
    rw [hnone] at h
    simp at h
  | case6 p q r rest rnd drawn axis sorted first second lt rnd2 h1 rt rnd3 h2 ihf ihs =>
    intro t rnd4 h
    have hf := ihf lt rnd2
    have hs := ihs rt rnd3
    unfold first at h1 hf
    unfold second at h2 hs
    unfold sorted axis drawn at h1 h2 hf hs
    simp only [build_bvh_tree] at h
    rw [h1] at h
    dsimp only at h
    rw [h2] at h
    simp only [Option.some.injEq, Prod.mk.injEq] at h
    rw [← h.1]
    obtain ⟨hwfl, hpl⟩ := hf h1
    obtain ⟨hwfr, hpr⟩ := hs h2
    constructor
    · simp [HTree.wf, HTree.bounding_box, hwfl, hwfr]
    · show (lt.leaves ++ rt.leaves).Perm (p :: q :: r :: rest)
      have happ := hpl.append hpr
      rw [List.take_append_drop] at happ
      exact happ.trans (sortByKey_perm _ _)

/-- C4: for every BVH tree produced by `build_bvh_tree`, every internal
node's bounding box is the exact union of its two children's boxes (the
well-formedness predicate `HTree.wf`), and the root's bounding box equals
the union of the bounding boxes of all input primitives. -/
theorem bvh_box_union (ls : List Sphere) (rnd : Rnd) (t : HTree) (rnd2 : Rnd)
    (h : build_bvh_tree ls rnd = some (t, rnd2)) :
    t.wf = true ∧ t.bounding_box = unionAll ls ∧ t.leaves.Perm ls := by
  obtain ⟨hwf, hperm⟩ := build_wf_leaves ls rnd t rnd2 h
  exact ⟨hwf, (wf_box_eq_unionAll t hwf).trans (unionAll_perm hperm), hperm⟩

/-- The two-leaf tree built from the two witness spheres. -/
def witTree2 : HTree :=
  .node (Aabb.surrounding_box witSphere.bounding_box missSphere.bounding_box)
    (.leaf witSphere) (.leaf missSphere)

theorem build_two_spheres :
    build_bvh_tree [witSphere, missSphere] rnd0 = some (witTree2, rnd0) := by
  simp [build_bvh_tree, witTree2]

theorem bvh_box_union_witness :
    witTree2.wf = true ∧ witTree2.bounding_box = unionAll [witSphere, missSphere] ∧
      witTree2.leaves.Perm [witSphere, missSphere] :=
  bvh_box_union [witSphere, missSphere] rnd0 witTree2 rnd0 build_two_spheres

/-- Brute force as a right fold of the `BvhNode::hit` combination. -/
def listHit (sq : ℚ → ℚ) (ps : List Sphere) (ray : Ray) (t_min t_max : ℚ) :
    Option HitRecord :=
  ps.foldr (fun p acc => HTree.hitCombine (p.hit sq ray t_min t_max) acc) none

theorem hitCombine_none_right (a : Option HitRecord) :
    HTree.hitCombine a none = a := by
  cases a <;> rfl

theorem hitCombine_none_left (a : Option HitRecord) :
    HTree.hitCombine none a = a := by
  cases a <;> rfl

theorem hitCombine_assoc (a b c : Option HitRecord) :
    HTree.hitCombine (HTree.hitCombine a b) c =
      HTree.hitCombine a (HTree.hitCombine b c) := by
  rcases a with _ | a <;> rcases b with _ | b <;> rcases c with _ | c <;>
    simp only [HTree.hitCombine] <;>
    split_ifs <;>
    simp only [HTree.hitCombine] <;>
    split_ifs <;>
    first
    | rfl
    | (exfalso; linarith)

theorem listHit_cons (sq : ℚ → ℚ) (p : Sphere) (ps : List Sphere) (ray : Ray)
    (t_min t_max : ℚ) :
    listHit sq (p :: ps) ray t_min t_max =
      HTree.hitCombine (p.hit sq ray t_min t_max) (listHit sq ps ray t_min t_max) := rfl

theorem listHit_append (sq : ℚ → ℚ) (l1 l2 : List Sphere) (ray : Ray)
    (t_min t_max : ℚ) :
    listHit sq (l1 ++ l2) ray t_min t_max =
      HTree.hitCombine (listHit sq l1 ray t_min t_max) (listHit sq l2 ray t_min t_max) := by
  induction l1 with
  | nil => rw [List.nil_append]; exact (hitCombine_none_left _).symm
  | cons p l1 ih =>
    rw [List.cons_append, listHit_cons, ih, listHit_cons, hitCombine_assoc]

/-- A `listHit` result is the hit of one of the scanned spheres. -/
theorem listHit_mem (sq : ℚ → ℚ) (ps : List Sphere) (ray : Ray) (t_min t_max : ℚ)
    (rec : HitRecord) (h : listHit sq ps ray t_min t_max = some rec) :
    ∃ p ∈ ps, p.hit sq ray t_min t_max = some rec := by
  induction ps with
  | nil => simp [listHit] at h
  | cons p ps ih =>
    rw [listHit_cons] at h
    rcases hp : p.hit sq ray t_min t_max with _ | hr
    · rw [hp] at h
      rcases hl : listHit sq ps ray t_min t_max with _ | lr
      · rw [hl] at h; simp [HTree.hitCombine] at h
      · rw [hl] at h
        simp only [HTree.hitCombine] at h
        obtain ⟨q, hq, hqh⟩ := ih (hl.trans h)
        exact ⟨q, List.mem_cons_of_mem p hq, hqh⟩
    · rw [hp] at h
      rcases hl : listHit sq ps ray t_min t_max with _ | lr
      · rw [hl] at h
        simp only [HTree.hitCombine, Option.some.injEq] at h
        exact ⟨p, List.mem_cons_self p ps, by rw [hp, h]⟩
      · rw [hl] at h
        simp only [HTree.hitCombine] at h
        split_ifs at h <;> simp only [Option.some.injEq] at h
        · exact ⟨p, List.mem_cons_self p ps, by rw [hp, h]⟩
        · obtain ⟨q, hq, hqh⟩ := ih (hl.trans (congrArg some h))
          exact ⟨q, List.mem_cons_of_mem p hq, hqh⟩

/-- Any returned sphere hit lies strictly inside the query range. -/
theorem sphere_hit_range (sq : ℚ → ℚ) (s : Sphere) (ray : Ray) (t_min t_max : ℚ)
    (rec : HitRecord) (h : s.hit sq ray t_min t_max = some rec) :
    t_min < rec.t ∧ rec.t < t_max := by
  rw [sphere_hit_eq] at h
  split_ifs at h with h1 h2 h3 <;> simp only [Option.some.injEq] at h <;>
    rw [← h] <;> exact ⟨by exact (by tauto), by tauto⟩

/-- Any returned sphere hit is the record at one of the two computed roots. -/
theorem sphere_hit_cases (sq : ℚ → ℚ) (s : Sphere) (ray : Ray) (t_min t_max : ℚ)
    (rec : HitRecord) (h : s.hit sq ray t_min t_max = some rec) :
    rec = sphereRecord s ray (sphereRoot1 sq s ray) ∨
      rec = sphereRecord s ray (sphereRoot2 sq s ray) := by
  rw [sphere_hit_eq] at h
  split_ifs at h with h1 h2 h3 <;> simp only [Option.some.injEq] at h
  · exact Or.inl h.symm
  · exact Or.inr h.symm

/-- Expansion of the squared distance from the sphere center to the ray
point at parameter `t`. -/
theorem square_length_point_at (ray : Ray) (s : Sphere) (t : ℚ) :
    Vec3.square_length (Vec3.sub (ray.point_at_parameter t) s.center) =
      Vec3.square_length ray.direction * t * t + 2 * sphereB s ray * t +
        Vec3.square_length (Vec3.sub ray.origin s.center) := by
  simp only [Vec3.square_length, Vec3.dot, Vec3.sub, Ray.point_at_parameter,
    Vec3.add, Vec3.smul, sphereB]
  ring

/-- At either computed root the ray point lies exactly on the sphere,
provided the external square root is exact on the discriminant. -/
theorem root_on_sphere (sq : ℚ → ℚ) (s : Sphere) (ray : Ray) (t : ℚ)
    (ha : Vec3.square_length ray.direction ≠ 0)
    (hsq : sq (sphereDisc s ray) * sq (sphereDisc s ray) = sphereDisc s ray)
    (ht : t = sphereRoot1 sq s ray ∨ t = sphereRoot2 sq s ray) :
    Vec3.square_length (Vec3.sub (ray.point_at_parameter t) s.center) =
      s.radius * s.radius := by
  rw [square_length_point_at]
  set a := Vec3.square_length ray.direction with hadef
  set b := sphereB s ray with hbdef
  set oc2 := Vec3.square_length (Vec3.sub ray.origin s.center) with hocdef
  have hdisc : sphereDisc s ray = b * b - a * (oc2 - s.radius * s.radius) := rfl
  rcases ht with ht | ht
  · rw [ht, sphereRoot1, ← hadef, ← hbdef]
    field_simp
    nlinarith [hsq, hdisc]
  · rw [ht, sphereRoot2, ← hadef, ← hbdef]
    field_simp
    nlinarith [hsq, hdisc]

/-- A point on the sphere lies inside the sphere's bounding box. -/
theorem on_sphere_in_box (s : Sphere) (p : Vec3) (hr : 0 < s.radius)
    (h : Vec3.square_length (Vec3.sub p s.center) = s.radius * s.radius) :
    Aabb.containsPoint s.bounding_box p := by
  simp only [Vec3.square_length, Vec3.dot, Vec3.sub] at h
  refine ⟨?_, ?_, ?_, ?_, ?_, ?_⟩ <;>
    simp only [Sphere.bounding_box, Aabb.build, Vec3.sub, Vec3.add] <;>
    nlinarith [sq_nonneg (p.x - s.center.x), sq_nonneg (p.y - s.center.y),
      sq_nonneg (p.z - s.center.z), h]

/-- One slab step preserves an enclosing interval around any parameter at
which the ray point is inside the slab. -/
theorem slabUpdate_sound (lo hi o d t tlo thi : ℚ)
    (hlo : lo ≤ o + t * d) (hhi : o + t * d ≤ hi)
    (hin : tlo ≤ t ∧ t ≤ thi) :
    ∃ tlo2 thi2, Aabb.slabUpdate lo hi o d (tlo, thi) = some (tlo2, thi2) ∧
      tlo2 ≤ t ∧ t ≤ thi2 := by
  by_cases hd : d = 0
  · subst hd
    simp only [mul_zero, add_zero] at hlo hhi
    refine ⟨tlo, thi, ?_, hin.1, hin.2⟩
    simp [Aabb.slabUpdate, hlo, hhi]
  · refine ⟨Max.max tlo (Min.min ((lo - o) / d) ((hi - o) / d)),
      Min.min thi (Max.max ((lo - o) / d) ((hi - o) / d)),
      by simp [Aabb.slabUpdate, hd], ?_, ?_⟩
    · apply max_le hin.1
      rcases lt_or_gt_of_ne hd with hneg | hpos
      · apply min_le_of_right_le
        rw [div_le_iff_of_neg hneg]
        nlinarith
      · apply min_le_of_left_le
        rw [div_le_iff₀ hpos]
        nlinarith
    · apply le_min hin.2
      rcases lt_or_gt_of_ne hd with hneg | hpos
      · apply le_max_of_le_left
        rw [le_div_iff_of_neg hneg]
        nlinarith
      · apply le_max_of_le_right
        rw [le_div_iff₀ hpos]
        nlinarith

/-- Slab-test soundness: a box containing a ray point at a parameter
strictly inside the query range reports a hit. -/
theorem aabb_hit_sound (box : Aabb) (ray : Ray) (t t_min t_max : ℚ)
    (hmem : Aabb.containsPoint box (ray.point_at_parameter t))
    (h1 : t_min < t) (h2 : t < t_max) :
    box.hit ray t_min t_max = true := by
  obtain ⟨hx1, hy1, hz1, hx2, hy2, hz2⟩ := hmem
  simp only [Ray.point_at_parameter, Vec3.add, Vec3.smul] at hx1 hy1 hz1 hx2 hy2 hz2
  have hx1 : box.min.x ≤ ray.origin.x + t * ray.direction.x := by linarith
  have hx2 : ray.origin.x + t * ray.direction.x ≤ box.max.x := by linarith
  have hy1 : box.min.y ≤ ray.origin.y + t * ray.direction.y := by linarith
  have hy2 : ray.origin.y + t * ray.direction.y ≤ box.max.y := by linarith
  have hz1 : box.min.z ≤ ray.origin.z + t * ray.direction.z := by linarith
  have hz2 : ray.origin.z + t * ray.direction.z ≤ box.max.z := by linarith
  obtain ⟨a1, b1, he1, ha1, hb1⟩ :=
    slabUpdate_sound box.min.x box.max.x ray.origin.x ray.direction.x t t_min t_max
      hx1 hx2 ⟨le_of_lt h1, le_of_lt h2⟩
  obtain ⟨a2, b2, he2, ha2, hb2⟩ :=
    slabUpdate_sound box.min.y box.max.y ray.origin.y ray.direction.y t a1 b1
      hy1 hy2 ⟨ha1, hb1⟩
  obtain ⟨a3, b3, he3, ha3, hb3⟩ :=
    slabUpdate_sound box.min.z box.max.z ray.origin.z ray.direction.z t a2 b2
      hz1 hz2 ⟨ha2, hb2⟩
  rw [Aabb.hit, he1]
  dsimp only
  rw [he2]
  dsimp only
  rw [he3]
  simp only [decide_eq_true_eq]
  linarith

/-- Box containment is transitive onto points. -/
theorem contains_point_mono (a b : Aabb) (p : Vec3) (hab : Aabb.contains a b)
    (hp : Aabb.containsPoint b p) : Aabb.containsPoint a p := by
  obtain ⟨h1, h2, h3, h4, h5, h6⟩ := hab
  obtain ⟨g1, g2, g3, g4, g5, g6⟩ := hp
  exact ⟨by linarith, by linarith, by linarith, by linarith, by linarith, by linarith⟩

theorem surrounding_contains_left (a b : Aabb) :
    Aabb.contains (Aabb.surrounding_box a b) a := by
  refine ⟨?_, ?_, ?_, ?_, ?_, ?_⟩ <;>
    simp [Aabb.surrounding_box, min_le_left, le_max_left]

theorem surrounding_contains_right (a b : Aabb) :
    Aabb.contains (Aabb.surrounding_box a b) b := by
  refine ⟨?_, ?_, ?_, ?_, ?_, ?_⟩ <;>
    simp [Aabb.surrounding_box, min_le_right, le_max_right]

theorem contains_trans (a b c : Aabb) (h1 : Aabb.contains a b)
    (h2 : Aabb.contains b c) : Aabb.contains a c := by
  obtain ⟨x1, x2, x3, x4, x5, x6⟩ := h1
  obtain ⟨y1, y2, y3, y4, y5, y6⟩ := h2
  exact ⟨by linarith, by linarith, by linarith, by linarith, by linarith, by linarith⟩

theorem contains_refl (a : Aabb) : Aabb.contains a a :=
  ⟨le_refl _, le_refl _, le_refl _, le_refl _, le_refl _, le_refl _⟩

/-- In a well-formed tree, the root box contains every leaf's box. -/
theorem wf_contains_leaf (t : HTree) (h : t.wf = true) (p : Sphere)
    (hp : p ∈ t.leaves) : Aabb.contains t.bounding_box p.bounding_box := by
  induction t with
  | leaf s =>
    simp only [HTree.leaves, List.mem_singleton] at hp
    rw [hp]
    exact contains_refl _
  | node bb l r ihl ihr =>
    simp only [HTree.wf, Bool.and_eq_true, decide_eq_true_eq] at h
    obtain ⟨⟨hbb, hl⟩, hr⟩ := h
    simp only [HTree.leaves, List.mem_append] at hp
    show Aabb.contains bb p.bounding_box
    rw [hbb]
    rcases hp with hp | hp
    · exact contains_trans _ _ _ (surrounding_contains_left _ _) (ihl hl hp)
    · exact contains_trans _ _ _ (surrounding_contains_right _ _) (ihr hr hp)

/-- A returned sphere hit (with exact square root and positive radius) has
its ray point inside the sphere's bounding box and its `t` in range. -/
theorem sphere_hit_in_box (sq : ℚ → ℚ) (s : Sphere) (ray : Ray)
    (t_min t_max : ℚ) (rec : HitRecord) (hdir : ray.direction ≠ vzero)
    (hr : 0 < s.radius)
    (hsq : 0 < sphereDisc s ray →
      sq (sphereDisc s ray) * sq (sphereDisc s ray) = sphereDisc s ray)
    (h : s.hit sq ray t_min t_max = some rec) :
    Aabb.containsPoint s.bounding_box (ray.point_at_parameter rec.t) ∧
      t_min < rec.t ∧ rec.t < t_max := by
  have hrange := sphere_hit_range sq s ray t_min t_max rec h
  have hdiscpos : 0 < sphereDisc s ray := by
    by_contra hle
    rw [sphere_hit_eq, if_neg hle] at h
    exact Option.noConfusion h
  have hcases := sphere_hit_cases sq s ray t_min t_max rec h
  have ht : rec.t = sphereRoot1 sq s ray ∨ rec.t = sphereRoot2 sq s ray := by
    rcases hcases with h' | h'
    · left; rw [h']; rfl
    · right; rw [h']; rfl
  have hons := root_on_sphere sq s ray rec.t
    (ne_of_gt (square_length_pos _ hdir)) (hsq hdiscpos) ht
  exact ⟨on_sphere_in_box s _ hr hons, hrange⟩

/-- The per-primitive hypotheses the BVH equivalence needs: positive radii,
and an external square root exact on every positive discriminant arising
from the scene and the ray. -/
def sceneOk (sq : ℚ → ℚ) (ray : Ray) (ps : List Sphere) : Prop :=
  ∀ p ∈ ps, 0 < p.radius ∧
    (0 < sphereDisc p ray →
      sq (sphereDisc p ray) * sq (sphereDisc p ray) = sphereDisc p ray)

/-- Pruning soundness: if a well-formed subtree's box misses the ray, no
primitive stored in that subtree hits it within the range. -/
theorem pruned_no_hit (sq : ℚ → ℚ) (t : HTree) (ray : Ray) (t_min t_max : ℚ)
    (hw : t.wf = true) (hdir : ray.direction ≠ vzero)
    (hok : sceneOk sq ray t.leaves)
    (hbox : t.bounding_box.hit ray t_min t_max = false) :
    ∀ p ∈ t.leaves, p.hit sq ray t_min t_max = none := by
  intro p hp
  cases hh : p.hit sq ray t_min t_max with
  | none => rfl
  | some rec =>
    exfalso
    obtain ⟨hmem, hr1, hr2⟩ := sphere_hit_in_box sq p ray t_min t_max rec hdir
      (hok p hp).1 (hok p hp).2 hh
    have hcontains := wf_contains_leaf t hw p hp
    have := aabb_hit_sound t.bounding_box ray rec.t t_min t_max
      (contains_point_mono _ _ _ hcontains hmem) hr1 hr2
    rw [hbox] at this
    exact Bool.false_ne_true this

theorem listHit_of_all_none (sq : ℚ → ℚ) (ps : List Sphere) (ray : Ray)
    (t_min t_max : ℚ) (h : ∀ p ∈ ps, p.hit sq ray t_min t_max = none) :
    listHit sq ps ray t_min t_max = none := by
  induction ps with
  | nil => rfl
  | cons p ps ih =>
    rw [listHit_cons, h p (List.mem_cons_self p ps),
      ih (fun q hq => h q (List.mem_cons_of_mem p hq))]
    rfl

/-- The BVH traversal computes the same result as the fold of the node
combination over the leaves, given pruning soundness. -/
theorem tree_hit_eq_listHit (sq : ℚ → ℚ) (t : HTree) (ray : Ray)
    (t_min t_max : ℚ) (hw : t.wf = true) (hdir : ray.direction ≠ vzero)
    (hok : sceneOk sq ray t.leaves) :
    t.hit sq ray t_min t_max = listHit sq t.leaves ray t_min t_max := by
  induction t with
  | leaf s =>
    show Sphere.hit sq s ray t_min t_max = _
    rw [show HTree.leaves (.leaf s) = [s] from rfl, listHit_cons,
      show listHit sq [] ray t_min t_max = none from rfl, hitCombine_none_right]
  | node bb l r ihl ihr =>
    have hwn := hw
    simp only [HTree.wf, Bool.and_eq_true, decide_eq_true_eq] at hwn
    obtain ⟨⟨hbb, hl⟩, hr⟩ := hwn
    have hokl : sceneOk sq ray l.leaves := fun p hp =>
      hok p (by simp [HTree.leaves, hp])
    have hokr : sceneOk sq ray r.leaves := fun p hp =>
      hok p (by simp [HTree.leaves, hp])
    show (if bb.hit ray t_min t_max then _ else none) = _
    by_cases hb : bb.hit ray t_min t_max
    · rw [if_pos hb]
      show HTree.hitCombine (l.hit sq ray t_min t_max) (r.hit sq ray t_min t_max) = _
      rw [ihl hl hokl, ihr hr hokr,
        show HTree.leaves (.node bb l r) = l.leaves ++ r.leaves from rfl,
        listHit_append]
    · rw [if_neg hb]
      refine (listHit_of_all_none sq _ ray t_min t_max ?_).symm
      exact pruned_no_hit sq (.node bb l r) ray t_min t_max hw hdir hok
        (by simpa using hb)

/-- Minimum of two optional values. -/
def minOpt : Option ℚ → Option ℚ → Option ℚ
  | none, b => b
  | some a, none => some a
  | some a, some b => some (Min.min a b)

/-- Minimum of a list of rationals, `none` on the empty list. -/
def minT? (l : List ℚ) : Option ℚ :=
  l.foldr (fun a acc => minOpt (some a) acc) none

/-- The `t` values at which the scanned spheres report hits. -/
def hitTs (sq : ℚ → ℚ) (ps : List Sphere) (ray : Ray) (t_min t_max : ℚ) :
    List ℚ :=
  ps.filterMap (fun p => Option.map HitRecord.t (p.hit sq ray t_min t_max))

theorem minOpt_none_right (a : Option ℚ) : minOpt a none = a := by
  cases a <;> rfl

theorem minOpt_comm (a b : Option ℚ) : minOpt a b = minOpt b a := by
  cases a <;> cases b <;> simp [minOpt, min_comm]

theorem minOpt_assoc (a b c : Option ℚ) :
    minOpt (minOpt a b) c = minOpt a (minOpt b c) := by
  cases a <;> cases b <;> cases c <;> simp [minOpt, min_assoc]

theorem minT?_cons (x : ℚ) (xs : List ℚ) :
    minT? (x :: xs) = minOpt (some x) (minT? xs) := rfl

theorem listHit_t (sq : ℚ → ℚ) (ps : List Sphere) (ray : Ray) (t_min t_max : ℚ) :
    Option.map HitRecord.t (listHit sq ps ray t_min t_max) =
      minT? (hitTs sq ps ray t_min t_max) := by
  induction ps with
  | nil => rfl
  | cons p ps ih =>
    rw [listHit_cons]
    cases hp : p.hit sq ray t_min t_max with
    | none =>
      rw [hitCombine_none_left,
        show hitTs sq (p :: ps) ray t_min t_max = hitTs sq ps ray t_min t_max by
          simp [hitTs, List.filterMap_cons, hp]]
      exact ih
    | some r =>
      rw [show hitTs sq (p :: ps) ray t_min t_max =
          r.t :: hitTs sq ps ray t_min t_max by
        simp [hitTs, List.filterMap_cons, hp], minT?_cons, ← ih]
      cases hl : listHit sq ps ray t_min t_max with
      | none => rfl
      | some b =>
        show Option.map HitRecord.t (if r.t < b.t then some r else some b) = _
        by_cases hlt : r.t < b.t
        · rw [if_pos hlt]
          show some r.t = some (Min.min r.t b.t)
          rw [min_eq_left (le_of_lt hlt)]
        · rw [if_neg hlt]
          show some b.t = some (Min.min r.t b.t)
          rw [min_eq_right (not_lt.mp hlt)]

theorem linearScan_aux (sq : ℚ → ℚ) (ray : Ray) (t_min t_max : ℚ) :
    ∀ (ps : List Sphere) (acc : Option HitRecord),
      Option.map HitRecord.t (ps.foldl
        (fun acc p =>
          match acc, p.hit sq ray t_min t_max with
          | none, h => h
          | some a, none => some a
          | some a, some h => if h.t < a.t then some h else some a) acc) =
      minOpt (Option.map HitRecord.t acc) (minT? (hitTs sq ps ray t_min t_max)) := by
  intro ps
  induction ps with
  | nil =>
    intro acc
    show Option.map HitRecord.t acc = _
    rw [show hitTs sq [] ray t_min t_max = [] from rfl,
      show minT? [] = none from rfl, minOpt_none_right]
  | cons p ps ih =>
    intro acc
    rw [List.foldl_cons, ih]
    cases hp : p.hit sq ray t_min t_max with
    | none =>
      rw [show hitTs sq (p :: ps) ray t_min t_max = hitTs sq ps ray t_min t_max by
        simp [hitTs, List.filterMap_cons, hp]]
      cases acc <;> rfl
    | some r =>
      rw [show hitTs sq (p :: ps) ray t_min t_max =
          r.t :: hitTs sq ps ray t_min t_max by
        simp [hitTs, List.filterMap_cons, hp], minT?_cons]
      cases acc with
      | none => rfl
      | some a =>
        show minOpt (Option.map HitRecord.t (if r.t < a.t then some r else some a)) _ = _
        have hstep : Option.map HitRecord.t (if r.t < a.t then some r else some a) =
            minOpt (some a.t) (some r.t) := by
          by_cases hlt : r.t < a.t
          · rw [if_pos hlt]
            show some r.t = some (Min.min a.t r.t)
            rw [min_eq_right (le_of_lt hlt)]
          · rw [if_neg hlt]
            show some a.t = some (Min.min a.t r.t)
            rw [min_eq_left (not_lt.mp hlt)]
        rw [hstep, minOpt_assoc]
        rfl

theorem linearScan_t (sq : ℚ → ℚ) (ps : List Sphere) (ray : Ray) (t_min t_max : ℚ) :
    Option.map HitRecord.t (linearScan sq ps ray t_min t_max) =
      minT? (hitTs sq ps ray t_min t_max) := by
  rw [linearScan, linearScan_aux]
  rfl

theorem minT?_perm {l1 l2 : List ℚ} (h : l1.Perm l2) : minT? l1 = minT? l2 := by
  induction h with
  | nil => rfl
  | cons x h ih => rw [minT?_cons, minT?_cons, ih]
  | swap x y l =>
    rw [minT?_cons, minT?_cons, minT?_cons, minT?_cons, ← minOpt_assoc,
      ← minOpt_assoc, minOpt_comm (some y) (some x)]
  | trans h1 h2 ih1 ih2 => exact ih1.trans ih2

theorem minT?_eq_none (l : List ℚ) : minT? l = none ↔ l = [] := by
  cases l with
  | nil => simp [minT?]
  | cons x xs =>
    rw [minT?_cons]
    cases hm : minT? xs <;> simp [minOpt]

theorem minT?_le : ∀ (l : List ℚ) (v : ℚ), minT? l = some v → ∀ u ∈ l, v ≤ u := by
  intro l
  induction l with
  | nil => intro v h u hu; simp at hu
  | cons x xs ih =>
    intro v h u hu
    rw [minT?_cons] at h
    cases hm : minT? xs with
    | none =>
      rw [hm, minOpt_none_right, Option.some.injEq] at h
      have hxs : xs = [] := (minT?_eq_none xs).mp hm
      subst hxs
      simp only [List.mem_singleton] at hu
      rw [hu, ← h]
    | some m =>
      rw [hm] at h
      simp only [minOpt, Option.some.injEq] at h
      rcases List.mem_cons.mp hu with hux | hux
      · rw [hux, ← h]
        exact min_le_left _ _
      · calc v = Min.min x m := h.symm
          _ ≤ m := min_le_right _ _
          _ ≤ u := ih m hm u hux

/-- C1 (amended): for every ray with nonzero direction, every range, and
every BVH tree built from a scene of positive-radius spheres (with the
external square root exact on the arising discriminants), `BvhNode::hit`
agrees with the brute-force linear scan on presence of a hit and on the hit
parameter `t` — though under ties in `t` the two may return distinct
primitives' records — and any returned record's `t` lies strictly within
`(t_min, t_max)` and is minimal among all per-primitive hits. -/
theorem bvh_hit_refines_scan (sq : ℚ → ℚ) (ls : List Sphere) (rnd : Rnd)
    (t : HTree) (rnd2 : Rnd) (ray : Ray) (t_min t_max : ℚ)
    (hb : build_bvh_tree ls rnd = some (t, rnd2))
    (hdir : ray.direction ≠ vzero)
    (hok : sceneOk sq ray ls) :
    Option.map HitRecord.t (t.hit sq ray t_min t_max) =
      Option.map HitRecord.t (linearScan sq ls ray t_min t_max) ∧
    ∀ rec, t.hit sq ray t_min t_max = some rec →
      (t_min < rec.t ∧ rec.t < t_max) ∧
      ∀ p ∈ ls, ∀ rec2, p.hit sq ray t_min t_max = some rec2 → rec.t ≤ rec2.t := by
  obtain ⟨hwf, hperm⟩ := build_wf_leaves ls rnd t rnd2 hb
  have hok2 : sceneOk sq ray t.leaves := fun p hp => hok p (hperm.subset hp)
  have htree := tree_hit_eq_listHit sq t ray t_min t_max hwf hdir hok2
  have hperm2 : (hitTs sq t.leaves ray t_min t_max).Perm (hitTs sq ls ray t_min t_max) :=
    hperm.filterMap _
  have h1 : Option.map HitRecord.t (t.hit sq ray t_min t_max) =
      minT? (hitTs sq ls ray t_min t_max) := by
    rw [htree, listHit_t, minT?_perm hperm2]
  constructor
  · rw [h1, linearScan_t]
  · intro rec hrec
    obtain ⟨p0, hp0, hph⟩ := listHit_mem sq t.leaves ray t_min t_max rec
      (htree ▸ hrec)
    refine ⟨sphere_hit_range sq p0 ray t_min t_max rec hph, ?_⟩
    intro p hp rec2 hrec2
    have hmin : minT? (hitTs sq ls ray t_min t_max) = some rec.t := by
      rw [← h1, hrec]
      rfl
    refine minT?_le _ rec.t hmin rec2.t ?_
    exact List.mem_filterMap.mpr ⟨p, hp, by rw [hrec2]; rfl⟩

/-- First counterexample sphere: center (43/10, 2/5, 0), radius 1/2; its
near intersection with `witRay` is at t = 4 with normal (−3/5, −4/5, 0). -/
def cexA : Sphere := ⟨⟨43 / 10, 2 / 5, 0⟩, 1 / 2, .lambertian ⟨1, 1, 1⟩⟩

/-- Second counterexample sphere: the mirror image of `cexA` below the ray;
also hit at t = 4, but with normal (−3/5, 4/5, 0) and a metal material. -/
def cexB : Sphere := ⟨⟨43 / 10, -(2 / 5), 0⟩, 1 / 2, .metal ⟨1, 1, 1⟩⟩

/-- Square-root oracle exact on the tied scene's discriminant 9/100. -/
def cexSq : ℚ → ℚ := fun d => if d = 9 / 100 then 3 / 10 else 0

/-- The two-leaf BVH built from `[cexA, cexB]`. -/
def cexTree : HTree :=
  .node (Aabb.surrounding_box cexA.bounding_box cexB.bounding_box)
    (.leaf cexA) (.leaf cexB)

theorem cexA_disc : sphereDisc cexA witRay = 9 / 100 := by
  norm_num [sphereDisc, sphereB, Vec3.square_length, Vec3.dot, Vec3.sub,
    cexA, witRay, vzero]

theorem cexB_disc : sphereDisc cexB witRay = 9 / 100 := by
  norm_num [sphereDisc, sphereB, Vec3.square_length, Vec3.dot, Vec3.sub,
    cexB, witRay, vzero]

theorem cexA_hit : Sphere.hit cexSq cexA witRay 0 10 = some (sphereRecord cexA witRay 4) := by
  rw [sphere_hit_eq, cexA_disc]
  have h1 : sphereRoot1 cexSq cexA witRay = 4 := by
    rw [sphereRoot1, cexA_disc]
    norm_num [cexSq, sphereB, Vec3.dot, Vec3.sub, Vec3.square_length, cexA, witRay, vzero]
  rw [h1]
  norm_num

theorem cexB_hit : Sphere.hit cexSq cexB witRay 0 10 = some (sphereRecord cexB witRay 4) := by
  rw [sphere_hit_eq, cexB_disc]
  have h1 : sphereRoot1 cexSq cexB witRay = 4 := by
    rw [sphereRoot1, cexB_disc]
    norm_num [cexSq, sphereB, Vec3.dot, Vec3.sub, Vec3.square_length, cexB, witRay, vzero]
  rw [h1]
  norm_num

theorem cex_build :
    build_bvh_tree [cexA, cexB] rnd0 = some (cexTree, rnd0) := by
  simp [build_bvh_tree, cexTree]

/-- C1 counterexample: on a tie in `t` between two distinct primitives the
BVH returns a different record than the brute-force scan — same `t = 4`,
different primitive (normal and material differ) — refuting "same primitive
and same t". -/
theorem bvh_tie_cex :
    build_bvh_tree [cexA, cexB] rnd0 = some (cexTree, rnd0) ∧
    cexTree.hit cexSq witRay 0 10 = some (sphereRecord cexB witRay 4) ∧
    linearScan cexSq [cexA, cexB] witRay 0 10 = some (sphereRecord cexA witRay 4) ∧
    (sphereRecord cexA witRay 4).t = (sphereRecord cexB witRay 4).t ∧
    sphereRecord cexA witRay 4 ≠ sphereRecord cexB witRay 4 := by
  refine ⟨cex_build, ?_, ?_, rfl, ?_⟩
  · show (if (Aabb.surrounding_box cexA.bounding_box cexB.bounding_box).hit witRay 0 10
        then HTree.hitCombine (Sphere.hit cexSq cexA witRay 0 10)
          (Sphere.hit cexSq cexB witRay 0 10)
        else none) = _
    have hbox : (Aabb.surrounding_box cexA.bounding_box cexB.bounding_box).hit witRay 0 10 = true := by
      apply aabb_hit_sound _ _ 4 0 10 _ (by norm_num) (by norm_num)
      apply contains_point_mono _ cexA.bounding_box _ (surrounding_contains_left _ _)
      refine ⟨?_, ?_, ?_, ?_, ?_, ?_⟩ <;>
        norm_num [cexA, Sphere.bounding_box, Aabb.build, Vec3.sub, Vec3.add,
          Ray.point_at_parameter, Vec3.smul, witRay, vzero]
    rw [if_pos hbox, cexA_hit, cexB_hit]
    simp only [HTree.hitCombine]
    rw [if_neg (by norm_num [sphereRecord])]
  · show List.foldl _ none [cexA, cexB] = _
    rw [List.foldl_cons, List.foldl_cons, List.foldl_nil]
    show (match (match (none : Option HitRecord), Sphere.hit cexSq cexA witRay 0 10 with
        | none, h => h
        | some a, none => some a
        | some a, some h => if h.t < a.t then some h else some a),
        Sphere.hit cexSq cexB witRay 0 10 with
      | none, h => h
      | some a, none => some a
      | some a, some h => if h.t < a.t then some h else some a) = _
    rw [cexA_hit, cexB_hit]
    show (if (sphereRecord cexB witRay 4).t < (sphereRecord cexA witRay 4).t
      then some (sphereRecord cexB witRay 4) else some (sphereRecord cexA witRay 4)) =
      some (sphereRecord cexA witRay 4)
    rw [if_neg (by norm_num [sphereRecord])]
  · intro h
    have := congrArg HitRecord.material h
    simp [sphereRecord, cexA, cexB] at this

/-- Witness for the amended C1 on a concrete two-sphere scene. -/
theorem bvh_hit_refines_scan_witness :
    Option.map HitRecord.t (cexTree.hit cexSq witRay 0 10) =
      Option.map HitRecord.t (linearScan cexSq [cexA, cexB] witRay 0 10) := by
  refine (bvh_hit_refines_scan cexSq [cexA, cexB] rnd0 cexTree rnd0 witRay 0 10
    cex_build ?_ ?_).1
  · simp [witRay, vzero, Vec3.mk.injEq]
  · intro p hp
    simp only [List.mem_cons, List.mem_singleton, List.not_mem_nil, or_false] at hp
    rcases hp with hp | hp <;> subst hp
    · exact ⟨by norm_num [cexA], fun _ => by rw [cexA_disc]; norm_num [cexSq]⟩
    · exact ⟨by norm_num [cexB], fun _ => by rw [cexB_disc]; norm_num [cexSq]⟩

theorem get_segment_contiguous (tc i ny : ℕ) (h : i + 1 < tc) :
    (get_segment tc i ny).2 = (get_segment tc (i + 1) ny).1 := by
  simp only [get_segment]
  rw [if_neg (by omega)]

theorem get_segment_zero_lower (tc ny : ℕ) : (get_segment tc 0 ny).1 = 0 := by
  simp [get_segment]

theorem get_segment_last_upper (tc ny : ℕ) :
    (get_segment tc (tc - 1) ny).2 = ny := by
  simp [get_segment]

theorem get_segment_le (tc i ny : ℕ) (_htc : 1 ≤ tc) (hi : i < tc) :
    (get_segment tc i ny).1 ≤ (get_segment tc i ny).2 ∧
      (get_segment tc i ny).2 ≤ ny := by
  simp only [get_segment]
  have hmul : ny / tc * tc ≤ ny := Nat.div_mul_le_self ny tc
  have h1 : ny / tc * i ≤ ny / tc * tc := Nat.mul_le_mul_left _ (le_of_lt hi)
  split_ifs with hlast
  · omega
  · have h2 : ny / tc * (i + 1) ≤ ny / tc * tc := Nat.mul_le_mul_left _ (by omega)
    have h3 : ny / tc * i ≤ ny / tc * (i + 1) := Nat.mul_le_mul_left _ (by omega)
    omega

/-- Bands are pairwise disjoint: an earlier band ends no later than a later
band begins. -/
theorem get_segment_disjoint (tc i j ny : ℕ) (hij : i < j) (hj : j < tc) :
    (get_segment tc i ny).2 ≤ (get_segment tc j ny).1 := by
  simp only [get_segment]
  rw [if_neg (by omega)]
  exact Nat.mul_le_mul_left _ (by omega)

theorem chain_lb (l u : ℕ → ℕ) (n : ℕ) (hchain : ∀ i, i + 1 < n → u i = l (i + 1))
    (hle : ∀ i, i < n → l i ≤ u i) : ∀ j, j < n → l 0 ≤ u j := by
  intro j
  induction j with
  | zero => intro h; exact hle 0 h
  | succ j ih =>
    intro h
    calc l 0 ≤ u j := ih (by omega)
      _ = l (j + 1) := hchain j h
      _ ≤ u (j + 1) := hle _ h

/-- Concatenating a chain of contiguous index ranges gives one range. -/
theorem range'_chain_flatten (l u : ℕ → ℕ) :
    ∀ n, 1 ≤ n → (∀ i, i + 1 < n → u i = l (i + 1)) → (∀ i, i < n → l i ≤ u i) →
    ((List.range n).map (fun i => List.range' (l i) (u i - l i))).flatten =
      List.range' (l 0) (u (n - 1) - l 0) := by
  intro n
  induction n with
  | zero => omega
  | succ n ih =>
    intro _ hchain hle
    rcases Nat.eq_zero_or_pos n with h0 | hpos
    · subst h0
      rw [List.range_succ, List.range_zero]
      simp
    · rw [List.range_succ, List.map_append, List.flatten_append,
        ih hpos (fun i hi => hchain i (by omega)) (fun i hi => hle i (by omega))]
      simp only [List.map_cons, List.map_nil, List.flatten_cons, List.flatten_nil,
        List.append_nil]
      have hlink : u (n - 1) = l n := by
        have := hchain (n - 1) (by omega)
        rwa [show n - 1 + 1 = n by omega] at this
      have hmono : l 0 ≤ u (n - 1) :=
        chain_lb l u (n + 1) hchain hle (n - 1) (by omega)
      have hln : l n ≤ u n := hle n (by omega)
      have harr : l n = l 0 + 1 * (u (n - 1) - l 0) := by omega
      rw [show List.range' (l n) (u n - l n) =
          List.range' (l 0 + 1 * (u (n - 1) - l 0)) (u n - l n) by rw [← harr],
        List.range'_append]
      simp only [Nat.add_sub_cancel]
      congr 1
      omega

theorem flatten_reverse_map {α β : Type} (f : α → List β) (xs : List α) :
    ((xs.reverse.map (fun x => (f x).reverse)).flatten) =
      ((xs.map f).flatten).reverse := by
  induction xs with
  | nil => rfl
  | cons x xs ih =>
    simp only [List.reverse_cons, List.map_append, List.map_cons, List.map_nil,
      List.flatten_append, List.flatten_cons, List.flatten_nil, List.append_nil,
      ih, List.reverse_append]

theorem mem_bandYs (tc i ny y : ℕ) (_htc : 1 ≤ tc) (_hi : i < tc)
    (hle : (get_segment tc i ny).1 ≤ (get_segment tc i ny).2) :
    y ∈ bandYs tc i ny ↔
      (get_segment tc i ny).1 ≤ y ∧ y < (get_segment tc i ny).2 := by
  rw [bandYs, List.mem_reverse, List.mem_range'_1]
  omega

/-- The worker bands, walked from the last (topmost) band down, enumerate
exactly the row indices `ny − 1, …, 0` in image order. -/
theorem bandYs_flatten (tc ny : ℕ) (htc : 1 ≤ tc) :
    (((List.range tc).reverse).map (fun i => bandYs tc i ny)).flatten =
      (List.range ny).reverse := by
  have hmain := range'_chain_flatten (fun i => (get_segment tc i ny).1)
    (fun i => (get_segment tc i ny).2) tc htc
    (fun i hi => get_segment_contiguous tc i ny hi)
    (fun i hi => (get_segment_le tc i ny htc hi).1)
  dsimp only at hmain
  rw [get_segment_zero_lower, get_segment_last_upper] at hmain
  have hform : (fun i => bandYs tc i ny) = fun i =>
      (List.range' ((get_segment tc i ny).1)
        ((get_segment tc i ny).2 - (get_segment tc i ny).1)).reverse := rfl
  rw [hform, flatten_reverse_map
    (fun i => List.range' ((get_segment tc i ny).1)
      ((get_segment tc i ny).2 - (get_segment tc i ny).1)) (List.range tc),
    hmain, Nat.sub_zero, ← List.range_eq_range']

/-- If row `y` is in band `i`, then `i` is the owner of `y`. -/
theorem rowOwner_eq (tc ny y i : ℕ) (htc : 1 ≤ tc) (hi : i < tc)
    (hy1 : (get_segment tc i ny).1 ≤ y) (hy2 : y < (get_segment tc i ny).2) :
    rowOwner tc ny y = i := by
  simp only [get_segment] at hy1 hy2
  simp only [rowOwner]
  by_cases hseg : ny / tc = 0
  · rw [if_pos hseg]
    rw [hseg] at hy1 hy2
    simp only [Nat.zero_mul] at hy1 hy2
    by_contra hne
    rw [if_neg (by omega)] at hy2
    omega
  · rw [if_neg hseg]
    have hsegpos : 0 < ny / tc := Nat.pos_of_ne_zero hseg
    by_cases hlast : i = tc - 1
    · rw [if_pos hlast] at hy2
      subst hlast
      have hdiv : tc - 1 ≤ y / (ny / tc) :=
        (Nat.le_div_iff_mul_le hsegpos).mpr (by
          calc (tc - 1) * (ny / tc) = ny / tc * (tc - 1) := Nat.mul_comm _ _
            _ ≤ y := hy1)
      omega
    · rw [if_neg hlast] at hy2
      have hup : y / (ny / tc) ≤ i := by
        have := (Nat.div_lt_iff_lt_mul hsegpos).mpr (by
          calc y < ny / tc * (i + 1) := hy2
            _ = (i + 1) * (ny / tc) := Nat.mul_comm _ _)
        omega
      have hlo : i ≤ y / (ny / tc) :=
        (Nat.le_div_iff_mul_le hsegpos).mpr (by
          calc i * (ny / tc) = ny / tc * i := Nat.mul_comm _ _
            _ ≤ y := hy1)
      have heq : y / (ny / tc) = i := le_antisymm hup hlo
      rw [heq]
      omega

/-- Every row below `ny` belongs to its owner's band. -/
theorem rowOwner_mem (tc ny y : ℕ) (htc : 1 ≤ tc) (hy : y < ny) :
    rowOwner tc ny y < tc ∧
      (get_segment tc (rowOwner tc ny y) ny).1 ≤ y ∧
      y < (get_segment tc (rowOwner tc ny y) ny).2 := by
  simp only [rowOwner, get_segment]
  by_cases hseg : ny / tc = 0
  · rw [if_pos hseg, if_pos rfl, hseg]
    simp only [Nat.zero_mul]
    omega
  · rw [if_neg hseg]
    have hsegpos : 0 < ny / tc := Nat.pos_of_ne_zero hseg
    have hmul : ny / tc * (y / (ny / tc)) ≤ y := by
      calc ny / tc * (y / (ny / tc)) = y / (ny / tc) * (ny / tc) := Nat.mul_comm _ _
        _ ≤ y := Nat.div_mul_le_self _ _
    have hmod := Nat.div_add_mod y (ny / tc)
    have hmodlt := Nat.mod_lt y hsegpos
    by_cases hcap : y / (ny / tc) ≤ tc - 1
    · rcases lt_or_eq_of_le hcap with hstrict | heqcap
      · have hminv : Min.min (y / (ny / tc)) (tc - 1) = y / (ny / tc) :=
          min_eq_left hcap
        rw [hminv]
        refine ⟨by omega, hmul, ?_⟩
        rw [if_neg (by omega)]
        calc y < ny / tc * (y / (ny / tc)) + ny / tc := by omega
          _ = ny / tc * (y / (ny / tc) + 1) := by ring
      · have hminv : Min.min (y / (ny / tc)) (tc - 1) = tc - 1 :=
          min_eq_right (le_of_eq heqcap.symm)
        rw [hminv, if_pos rfl]
        refine ⟨by omega, ?_, hy⟩
        rw [← heqcap]
        exact hmul
    · have hminv : Min.min (y / (ny / tc)) (tc - 1) = tc - 1 :=
        min_eq_right (by omega)
      rw [hminv, if_pos rfl]
      refine ⟨by omega, ?_, hy⟩
      calc ny / tc * (tc - 1) ≤ ny / tc * (y / (ny / tc)) :=
          Nat.mul_le_mul_left _ (by omega)
        _ ≤ y := hmul

theorem workerRows_keys (ext : Ambient) (world : HTree) (nx ny spp tc i : ℕ) :
    (workerRows ext world nx ny spp tc i).map Prod.fst = bandYs tc i ny := by
  unfold workerRows
  generalize ext.create_with_seed (1234 * i) = st
  generalize bandYs tc i ny = ys
  induction ys generalizing st with
  | nil => rfl
  | cons y ys ih => simp [mapWithState, ih]

theorem lookup_map_key (L : List (ℕ × List Vec3)) (hnd : (L.map Prod.fst).Nodup) :
    (L.map Prod.fst).map (fun y => ((L.lookup y).getD [])) = L.map Prod.snd := by
  induction L with
  | nil => rfl
  | cons e L ih =>
    obtain ⟨k, v⟩ := e
    simp only [List.map_cons] at hnd ⊢
    have hk : k ∉ L.map Prod.fst := (List.nodup_cons.mp hnd).1
    have hnd2 := (List.nodup_cons.mp hnd).2
    congr 1
    · simp [List.lookup]
    · rw [← ih hnd2]
      apply List.map_congr_left
      intro y hy
      have hyk : y ≠ k := fun h => hk (h ▸ hy)
      have hbeq : (y == k) = false := beq_eq_false_iff_ne.mpr hyk
      simp only [List.lookup, hbeq]

theorem bandYs_nodup (tc i ny : ℕ) : (bandYs tc i ny).Nodup := by
  rw [bandYs]
  exact List.nodup_reverse.mpr (List.nodup_range' _ _)

theorem workerBuffer_eq (ext : Ambient) (world : HTree) (nx ny spp tc i : ℕ)
    (htc : 1 ≤ tc) (hi : i < tc) :
    workerBuffer ext world nx ny spp tc i =
      ((bandYs tc i ny).map (rowContent ext world nx ny spp tc)).flatten := by
  have hkeys := workerRows_keys ext world nx ny spp tc i
  have hnd : ((workerRows ext world nx ny spp tc i).map Prod.fst).Nodup := by
    rw [hkeys]; exact bandYs_nodup tc i ny
  have hlook := lookup_map_key (workerRows ext world nx ny spp tc i) hnd
  unfold workerBuffer
  rw [← hlook, hkeys]
  congr 1
  apply List.map_congr_left
  intro y hy
  have hmem := (mem_bandYs tc i ny y htc hi
    (get_segment_le tc i ny htc hi).1).mp hy
  unfold rowContent
  rw [rowOwner_eq tc ny y i htc hi hmem.1 hmem.2]

theorem flatten_map_flatten (g : ℕ → List Vec3) (h : ℕ → List ℕ) (xs : List ℕ) :
    (xs.map (fun i => ((h i).map g).flatten)).flatten =
      ((xs.map h).flatten.map g).flatten := by
  induction xs with
  | nil => rfl
  | cons x xs ih =>
    simp [List.flatten_cons, List.map_append, List.flatten_append, ih]

/-- C5: the bands produced by `get_segment` for thread indices `0..tc` are
contiguous (each band ends where the next begins), pairwise disjoint (an
earlier band ends no later than a later band begins), cover every row
exactly once (each row `y < ny` lies in its owner's band), the first band
starts at row 0 and the last band absorbs the remainder up to `ny`; and the
concatenation of the workers' buffers in join order is exactly the rows in
image order (`y` from `ny − 1` down to 0), each row being the `nx` pixels
its owning worker computed for it. -/
theorem render_bands (ext : Ambient) (world : HTree) (nx ny spp tc : ℕ)
    (htc : 1 ≤ tc) :
    (∀ i, i + 1 < tc → (get_segment tc i ny).2 = (get_segment tc (i + 1) ny).1) ∧
    (∀ i j, i < j → j < tc → (get_segment tc i ny).2 ≤ (get_segment tc j ny).1) ∧
    (∀ y, y < ny → rowOwner tc ny y < tc ∧
      (get_segment tc (rowOwner tc ny y) ny).1 ≤ y ∧
      y < (get_segment tc (rowOwner tc ny y) ny).2) ∧
    (get_segment tc 0 ny).1 = 0 ∧ (get_segment tc (tc - 1) ny).2 = ny ∧
    render_multi_thread ext world nx ny spp tc =
      (((List.range ny).reverse).map (rowContent ext world nx ny spp tc)).flatten := by
  refine ⟨fun i hi => get_segment_contiguous tc i ny hi,
    fun i j hij hj => get_segment_disjoint tc i j ny hij hj,
    fun y hy => rowOwner_mem tc ny y htc hy,
    get_segment_zero_lower tc ny, get_segment_last_upper tc ny, ?_⟩
  unfold render_multi_thread
  have h1 : (List.range tc).reverse.map (workerBuffer ext world nx ny spp tc) =
      (List.range tc).reverse.map (fun i =>
        ((bandYs tc i ny).map (rowContent ext world nx ny spp tc)).flatten) := by
    apply List.map_congr_left
    intro i hi
    have hit : i < tc := List.mem_range.mp (List.mem_reverse.mp hi)
    exact workerBuffer_eq ext world nx ny spp tc i htc hit
  rw [h1, flatten_map_flatten (rowContent ext world nx ny spp tc)
    (fun i => bandYs tc i ny) ((List.range tc).reverse), bandYs_flatten tc ny htc]

theorem render_bands_witness :
    render_multi_thread witExt (.leaf missSphere) 1 3 0 2 =
      (((List.range 3).reverse).map (rowContent witExt (.leaf missSphere) 1 3 0 2)).flatten ∧
    get_segment 2 0 3 = (0, 1) ∧ get_segment 2 1 3 = (1, 3) := by
  refine ⟨(render_bands witExt (.leaf missSphere) 1 3 0 2 (by norm_num)).2.2.2.2.2,
    ?_, ?_⟩ <;> simp [get_segment]
